import Mathlib

/-!
Verification of the training-distribution calculator (`run.py`).

The Python program is embedded shallowly:
* Python `dict`s (which preserve insertion order and have unique keys) are
  association lists `Dict β = List (String × β)`; `dinsert` mirrors
  `d[k] = v` (update in place if the key exists, append otherwise) and
  `dlookup` mirrors `d.get(k)`.
* Python floats are modelled by exact rationals `ℚ`; `round(x, 4)` is
  modelled by `roundQ4`, rounding to a multiple of `1/10000` with ties to
  even (Python's rounding mode).
* The input file is a `Source`: either missing, or a list of lines each of
  which is malformed JSON or a parsed record (`Entry`); a field that is
  absent (or, for the token count, not an integer) is `none`.
-/

namespace MLDistGen

/-- Association-list model of a Python `dict` with `String` keys. -/
abbrev Dict (β : Type) := List (String × β)

/-- `d.get(k)`: value at the first occurrence of key `k`, if any. -/
def dlookup {β : Type} : Dict β → String → Option β
  | [], _ => none
  | (k1, v) :: rest, k => if k1 = k then some v else dlookup rest k

/-- `k in d`. -/
def dmem {β : Type} (d : Dict β) (k : String) : Bool :=
  (dlookup d k).isSome

/-- `d[k] = v`: replace the value at the first occurrence of `k`,
or append `(k, v)` if `k` is absent. -/
def dinsert {β : Type} : Dict β → String → β → Dict β
  | [], k, v => [(k, v)]
  | (k1, v1) :: rest, k, v =>
      if k1 = k then (k1, v) :: rest else (k1, v1) :: dinsert rest k v

/-- `{**a, **b}`: items of `b` inserted into `a` in order. -/
def dunion {β : Type} (a b : Dict β) : Dict β :=
  b.foldl (fun acc p => dinsert acc p.1 p.2) a

/-- A dict comprehension that keeps the keys:
`{k: f(k, v) for k, v in d.items()}`. -/
def dmap {β γ : Type} (f : String → β → γ) (d : Dict β) : Dict γ :=
  d.map (fun p => (p.1, f p.1 p.2))

/-- `sum(d.values())`. -/
def dsum {β : Type} [AddMonoid β] (d : Dict β) : β :=
  (d.map Prod.snd).sum

/-- `defaultdict(int)` accumulation: `d[k] += n`. -/
def daddInt (d : Dict Int) (k : String) (n : Int) : Dict Int :=
  dinsert d k ((dlookup d k).getD 0 + n)

/-- Scan keeping the strictly larger value (the first maximum wins). -/
def dmaxFrom (p : String × ℚ) : Dict ℚ → String × ℚ
  | [] => p
  | q :: rest => dmaxFrom (if p.2 < q.2 then q else p) rest

/-- `max(d, key=d.get)` together with its value (the first key attaining
the maximum value, as Python's `max` returns). -/
def dmaxPair : Dict ℚ → Option (String × ℚ)
  | [] => none
  | p :: rest => some (dmaxFrom p rest)

/-- The keys of `d` are pairwise distinct (the invariant of Python dicts). -/
def dnodup {β : Type} (d : Dict β) : Prop :=
  (d.map Prod.fst).Nodup

instance {β : Type} (d : Dict β) : Decidable (dnodup d) := by
  unfold dnodup; infer_instance

/-! ### Rounding: Python's `round(x, 4)` on exact rationals -/

/-- Round a rational to the nearest integer, ties to even. -/
def rhe (q : ℚ) : ℤ :=
  if q - ⌊q⌋ < 1 / 2 then ⌊q⌋
  else if (1 : ℚ) / 2 < q - ⌊q⌋ then ⌊q⌋ + 1
  else if Even ⌊q⌋ then ⌊q⌋ else ⌊q⌋ + 1

/-- `round(x, 4)`: round to a multiple of `1/10000`, ties to even. -/
def roundQ4 (q : ℚ) : ℚ :=
  (rhe (q * 10000) : ℚ) / 10000

/-- `x` is a multiple of `1/10000` (an exactly-representable 4-decimal value). -/
def IsQ4 (x : ℚ) : Prop := ∃ n : ℤ, x = (n : ℚ) / 10000

/-! ### The data model of `run.py` -/

/-- A parsed JSONL record.  A field is `none` when the key is absent;
`tokens` (the `gemma-3-tok` field) is `none` when absent or not an integer. -/
structure Entry where
  lang : Option String
  dataset : Option String
  path : Option String
  tokens : Option Int
deriving DecidableEq, Repr

/-- One line of the input file. -/
inductive Line where
  | malformed : Line
  | ok : Entry → Line
deriving DecidableEq, Repr

/-- The input source: a missing file, or the file's lines. -/
inductive Source where
  | missing : Source
  | lines : List Line → Source
deriving DecidableEq, Repr

/-- The arguments of `compute_distribution` other than the input path. -/
structure Config where
  totalTrainingTokens : Int
  dropDatasetsPerLang : List (String × List String)
  mergeDatasets : List (String × List String)
  fixedProportions : Dict ℚ
  minThreshold : Option ℚ
deriving DecidableEq, Repr

/-- The dictionary returned by `compute_distribution`. -/
structure Output where
  distribution : Dict ℚ
  total_available_tokens : Int
  language_usage_report : Dict ℚ
  dataset_proportions : Dict ℚ
deriving DecidableEq, Repr

/-- The ways `compute_distribution` can raise. -/
inductive Err where
  | fileNotFound : Err
  | notValidJsonl : Err
  | invalidEntry : Err
  | fixedTooLarge : Err
deriving DecidableEq, Repr

/-! ### The pipeline of `compute_distribution` -/

/-- Python truthiness of an optional string (`None` and `""` are falsy). -/
def truthy : Option String → Bool
  | none => false
  | some s => !(s == "")

/-- Line 39: `all([lang, ds, path, isinstance(tokens, int)])`. -/
def entryValid (e : Entry) : Bool :=
  truthy e.lang && truthy e.dataset && truthy e.path && e.tokens.isSome

/-- `entry["lang"]` of a validated entry. -/
def elang (e : Entry) : String := e.lang.getD ""

/-- `entry["dataset"]` of a validated entry. -/
def eds (e : Entry) : String := e.dataset.getD ""

/-- `entry["path"]` of a validated entry. -/
def epath (e : Entry) : String := e.path.getD ""

/-- `entry["gemma-3-tok"]` of a validated entry. -/
def etok (e : Entry) : Int := e.tokens.getD 0

/-- The list comprehension at line 29: fails if any line is malformed. -/
def parseAll : List Line → Option (List Entry)
  | [] => some []
  | Line.malformed :: _ => none
  | Line.ok e :: rest => (parseAll rest).map (e :: ·)

/-- Line 41: `ds in drop_datasets_per_lang.get(lang, [])`. -/
def isDropped (cfg : Config) (e : Entry) : Bool :=
  ((dlookup cfg.dropDatasetsPerLang (elang e)).getD []).contains (eds e)

/-- Lines 36-42 (the surviving records): `filtered_data`. -/
def filteredData (cfg : Config) (data : List Entry) : List Entry :=
  data.filter (fun e => !(isDropped cfg e))

/-- Line 50: `dataset_to_new_iso` built from a merge configuration. -/
def datasetToIso (merge : List (String × List String)) : Dict String :=
  merge.foldl (fun acc p => p.2.foldl (fun a ds => dinsert a ds p.1) acc) []

/-- The merge map of a configuration. -/
def isoMap (cfg : Config) : Dict String :=
  datasetToIso cfg.mergeDatasets

/-- Line 53: `dataset_to_new_iso.get(entry["dataset"], entry["lang"])`. -/
def mergeTarget (cfg : Config) (e : Entry) : String :=
  (dlookup (isoMap cfg) (eds e)).getD (elang e)

/-- Lines 51-54: `merged_lang_tokens`, on an already-filtered record list. -/
def mergedTokensF (cfg : Config) (fd : List Entry) : Dict Int :=
  fd.foldl (fun acc e => daddInt acc (mergeTarget cfg e) (etok e)) []

/-- Line 56: `total_available_tokens`. -/
def totalAvailableF (cfg : Config) (fd : List Entry) : Int :=
  dsum (mergedTokensF cfg fd)

/-- Line 58: `fixed_sum`. -/
def fixedSum (cfg : Config) : ℚ :=
  dsum cfg.fixedProportions

/-- Line 63: `leftover_tokens`. -/
def leftoverF (cfg : Config) (fd : List Entry) : Int :=
  dsum ((mergedTokensF cfg fd).filter (fun p => !(dmem cfg.fixedProportions p.1)))

/-- Lines 64-69: the raw distribution. -/
def rawDistF (cfg : Config) (fd : List Entry) : Dict ℚ :=
  if 0 < leftoverF cfg fd then
    dmap (fun k (v : Int) => (dlookup cfg.fixedProportions k).getD
        (((v : ℚ) / ((leftoverF cfg fd : ℤ) : ℚ)) * (1 - fixedSum cfg)))
      (mergedTokensF cfg fd)
  else cfg.fixedProportions

/-- Line 73: `bumps` (every listed group is set to the threshold value). -/
def bumpsD (t : ℚ) (fixed dist : Dict ℚ) : Dict ℚ :=
  dmap (fun _ _ => t) (dist.filter (fun p => !(dmem fixed p.1) && decide (p.2 < t)))

/-- Line 76: `to_adjust`. -/
def toAdjustD (fixed bumps dist : Dict ℚ) : Dict ℚ :=
  dist.filter (fun p => !(dmem fixed p.1) && !(dmem bumps p.1))

/-- Lines 72-81: the minimum-threshold stage. -/
def applyThr : Option ℚ → Dict ℚ → Dict ℚ → Dict ℚ
  | none, _, dist => dist
  | some t, fixed, dist =>
    if t = 0 then dist
    else if bumpsD t fixed dist = [] then dist
    else if 0 < dsum (toAdjustD fixed (bumpsD t fixed dist) dist) then
      dunion (dunion fixed (bumpsD t fixed dist))
        (dmap
          (fun _ v => v * ((1 - dsum fixed - dsum (bumpsD t fixed dist)) /
            dsum (toAdjustD fixed (bumpsD t fixed dist) dist)))
          (toAdjustD fixed (bumpsD t fixed dist) dist))
    else dist

/-- The distribution after the threshold stage (line 81 or unchanged). -/
def distThrF (cfg : Config) (fd : List Entry) : Dict ℚ :=
  applyThr cfg.minThreshold cfg.fixedProportions (rawDistF cfg fd)

/-- Lines 84-86: divide by the current total if it is positive. -/
def normalizeD (d : Dict ℚ) : Dict ℚ :=
  if 0 < dsum d then dmap (fun _ v => v / dsum d) d else d

/-- The normalized distribution entering the rounding step (line 86). -/
def normedF (cfg : Config) (fd : List Entry) : Dict ℚ :=
  normalizeD (distThrF cfg fd)

/-- Line 87: every value rounded to 4 decimal places. -/
def droundVals (d : Dict ℚ) : Dict ℚ :=
  dmap (fun _ v => roundQ4 v) d

/-- Line 88: the rounding remainder `diff`. -/
def roundDiff (d : Dict ℚ) : ℚ :=
  roundQ4 (1 - dsum (droundVals d))

/-- Lines 87-91 (and identically lines 109-113): round all values and add
the remainder to the first key attaining the maximal value. -/
def roundCorrect (d : Dict ℚ) : Dict ℚ :=
  if roundDiff d ≠ 0 ∧ droundVals d ≠ [] then
    match dmaxPair (droundVals d) with
    | some kv =>
        dinsert (droundVals d) kv.1
          (roundQ4 ((dlookup (droundVals d) kv.1).getD 0 + roundDiff d))
    | none => droundVals d
  else droundVals d

/-- The returned `rounded` language distribution (line 91 result). -/
def finalF (cfg : Config) (fd : List Entry) : Dict ℚ :=
  roundCorrect (normedF cfg fd)

/-- Lines 94-97: `language_usage_report`. -/
def usageF (cfg : Config) (fd : List Entry) : Dict ℚ :=
  dmap
    (fun k v => v * (cfg.totalTrainingTokens : ℚ) /
      (((dlookup (mergedTokensF cfg fd) k).getD 1 : ℤ) : ℚ))
    ((finalF cfg fd).filter (fun p => 0 < (dlookup (mergedTokensF cfg fd) p.1).getD 0))

/-- Lines 100-106: `dataset_proportions` keyed by path. -/
def dspRawF (cfg : Config) (fd : List Entry) : Dict ℚ :=
  fd.foldl (fun acc e =>
    match dlookup (finalF cfg fd) (mergeTarget cfg e),
          dlookup (mergedTokensF cfg fd) (mergeTarget cfg e) with
    | some p, some tot =>
        if 0 < tot then dinsert acc (epath e) (p * ((etok e : ℚ) / (tot : ℚ))) else acc
    | _, _ => acc) []

/-- Lines 109-113: `final_dataset_proportions`. -/
def dspFinalF (cfg : Config) (fd : List Entry) : Dict ℚ :=
  roundCorrect (dspRawF cfg fd)

/-- Lines 116-121: the returned dictionary, from the filtered records. -/
def coreF (cfg : Config) (fd : List Entry) : Output :=
  { distribution := finalF cfg fd
    total_available_tokens := totalAvailableF cfg fd
    language_usage_report := usageF cfg fd
    dataset_proportions := dspFinalF cfg fd }

/-! Stage views on the unfiltered validated data (what each claim refers to). -/

/-- `merged_lang_tokens` of a run on `data`. -/
def mergedTokens (cfg : Config) (data : List Entry) : Dict Int :=
  mergedTokensF cfg (filteredData cfg data)

/-- `leftover_tokens` of a run on `data`. -/
def leftoverTk (cfg : Config) (data : List Entry) : Int :=
  leftoverF cfg (filteredData cfg data)

/-- The raw (Stage 3) distribution of a run on `data`. -/
def rawDist (cfg : Config) (data : List Entry) : Dict ℚ :=
  rawDistF cfg (filteredData cfg data)

/-- The post-Stage-4 distribution of a run on `data`. -/
def distAfterThr (cfg : Config) (data : List Entry) : Dict ℚ :=
  distThrF cfg (filteredData cfg data)

/-- The normalized pre-rounding distribution of a run on `data`. -/
def normedDist (cfg : Config) (data : List Entry) : Dict ℚ :=
  normedF cfg (filteredData cfg data)

/-- The returned language distribution of a run on `data`. -/
def finalDist (cfg : Config) (data : List Entry) : Dict ℚ :=
  finalF cfg (filteredData cfg data)

/-- The returned usage report of a run on `data`. -/
def usageRep (cfg : Config) (data : List Entry) : Dict ℚ :=
  usageF cfg (filteredData cfg data)

/-- The returned dataset proportions of a run on `data`. -/
def dspFinal (cfg : Config) (data : List Entry) : Dict ℚ :=
  dspFinalF cfg (filteredData cfg data)

/-- The full result of a successful run on validated records. -/
def computeCore (cfg : Config) (data : List Entry) : Output :=
  coreF cfg (filteredData cfg data)

/-- `compute_distribution`: load, validate, check the fixed sum, compute. -/
def compute_distribution : Source → Config → Except Err Output
  | Source.missing, _ => Except.error Err.fileNotFound
  | Source.lines ls, cfg =>
    match parseAll ls with
    | none => Except.error Err.notValidJsonl
    | some data =>
      if data.all entryValid then
        if 1 < fixedSum cfg then Except.error Err.fixedTooLarge
        else Except.ok (computeCore cfg data)
      else Except.error Err.invalidEntry

/-- Whether a run raised. -/
def isFailure (r : Except Err Output) : Bool :=
  match r with
  | Except.error _ => true
  | Except.ok _ => false

/-- Whether lines 72-78 reach line 81 (the threshold stage rewrites the
distribution). -/
def thrFires : Option ℚ → Dict ℚ → Dict ℚ → Bool
  | none, _, _ => false
  | some t, fixed, dist =>
    if t = 0 then false
    else if bumpsD t fixed dist = [] then false
    else decide (0 < dsum (toAdjustD fixed (bumpsD t fixed dist) dist))

/-- Whether the threshold stage rewrites the distribution in a run on
`data`. -/
def rewriteFires (cfg : Config) (data : List Entry) : Bool :=
  thrFires cfg.minThreshold cfg.fixedProportions (rawDist cfg data)

/-- A record with all fields present. -/
def mkE (l d p : String) (n : Int) : Entry :=
  ⟨some l, some d, some p, some n⟩

/-! ### Concrete configurations and inputs used in counterexamples and
witnesses -/

/-- An empty configuration (no drop, merge, fixed or threshold rules). -/
def cfg0 : Config := ⟨1000, [], [], [], none⟩

/-- Threshold `3/5` and no other rules. -/
def cfgC2 : Config := ⟨1000, [], [], [], some (3/5)⟩

/-- Three groups with token counts 1, 1 and 100. -/
def dataC2 : List Entry := [mkE "a" "da" "pa" 1, mkE "b" "db" "pb" 1, mkE "c" "dc" "pc" 100]

/-- Fixed proportions for `eng` and `deu`. -/
def cfgC3 : Config := ⟨1000, [], [], [("eng", 1/2), ("deu", 3/10)], none⟩

/-- Records for `eng` and `fra` only (no `deu` tokens). -/
def dataC3 : List Entry := [mkE "eng" "D" "p1" 100, mkE "fra" "B" "p2" 100]

/-- A fixed proportion for `eng` only. -/
def cfgC6 : Config := ⟨1000, [], [], [("eng", 1/2)], none⟩

/-- A single `fra` record. -/
def dataC6 : List Entry := [mkE "fra" "B" "b" 100]

/-- A drop rule for dataset `D` of language `eng`. -/
def cfgC8 : Config := ⟨1000, [("eng", ["D"])], [], [], none⟩

/-- A record of a dropped dataset that is invalid (its `path` is missing). -/
def entryC8 : Entry := ⟨some "eng", some "D", none, some 5⟩

/-- A single record with a negative token count. -/
def dataC10a : List Entry := [mkE "aa" "d" "p" (-5)]

/-- A negative-token record next to a positive one. -/
def dataC10b : List Entry := [mkE "aa" "d" "p1" (-5), mkE "bb" "e" "p2" 10]

/-- Fixed `eng` next to an `eng` and a `fra` record (spec scenario). -/
def cfgW : Config := ⟨1000, [], [], [("eng", 1/2)], none⟩

/-- Two records with 100 tokens each. -/
def dataW : List Entry := [mkE "eng" "A" "a" 100, mkE "fra" "B" "b" 100]

/-- Threshold `1/100` and no other rules. -/
def cfgW2 : Config := ⟨1000, [], [], [], some (1/100)⟩

/-- Threshold `1/10` and no other rules (spec scenario). -/
def cfgW4 : Config := ⟨1000, [], [], [], some (1/10)⟩

/-- Two groups with token counts 2 and 98. -/
def dataW4 : List Entry := [mkE "x" "d" "p1" 2, mkE "y" "e" "p2" 98]

/-- A single record whose group is fixed (no leftover tokens). -/
def dataW7 : List Entry := [mkE "eng" "A" "a" 100]

/-- The same configuration with the drop rules removed. -/
def dropCleared (cfg : Config) : Config :=
  { cfg with dropDatasetsPerLang := [] }

/-- Two valid records of which the first is dropped by `cfgC8`. -/
def dataC8w : List Entry := [mkE "eng" "D" "p1" 100, mkE "fra" "B" "p2" 50]

/-- Fixed proportions for `eng` and `deu`, no other rules. -/
def cfgC6w : Config := ⟨1000, [], [], [("eng", 1/2), ("deu", 3/10)], none⟩

/-- A single `eng` record (so `deu` is configured but absent and the
leftover token count is zero). -/
def dataC6w : List Entry := [mkE "eng" "A" "a" 100]

/-! ## Dictionary lemmas -/

theorem dlookup_dinsert_self {β : Type} (d : Dict β) (k : String) (v : β) :
    dlookup (dinsert d k v) k = some v := by
  induction d with
  | nil => simp [dinsert, dlookup]
  | cons p rest ih =>
    obtain ⟨a, b⟩ := p
    by_cases h : a = k
    · simp [dinsert, h, dlookup]
    · simp [dinsert, h, dlookup, ih]

theorem dlookup_dinsert_ne {β : Type} (d : Dict β) {g k : String} (v : β) (h : g ≠ k) :
    dlookup (dinsert d k v) g = dlookup d g := by
  induction d with
  | nil =>
    simp only [dinsert, dlookup]
    rw [if_neg (fun hh => h hh.symm)]
  | cons p rest ih =>
    obtain ⟨a, b⟩ := p
    by_cases hk : a = k
    · have hg : ¬ a = g := fun hh => h (hh.symm.trans hk)
      simp only [dinsert, if_pos hk, dlookup]
      rw [if_neg hg, if_neg hg]
    · simp only [dinsert, if_neg hk, dlookup]
      by_cases hg : a = g
      · rw [if_pos hg, if_pos hg]
      · rw [if_neg hg, if_neg hg, ih]

theorem mem_of_dlookup {β : Type} {d : Dict β} {k : String} {v : β}
    (h : dlookup d k = some v) : (k, v) ∈ d := by
  induction d with
  | nil => simp [dlookup] at h
  | cons p rest ih =>
    obtain ⟨a, b⟩ := p
    by_cases hk : a = k
    · simp [dlookup, hk] at h
      exact List.mem_cons.mpr (Or.inl (by simp [← hk, h]))
    · simp [dlookup, hk] at h
      exact List.mem_cons_of_mem _ (ih h)

theorem dlookup_isSome_of_mem {β : Type} {d : Dict β} {k : String} {v : β}
    (h : (k, v) ∈ d) : (dlookup d k).isSome := by
  induction d with
  | nil => simp at h
  | cons p rest ih =>
    obtain ⟨a, b⟩ := p
    rcases List.mem_cons.mp h with h1 | h1
    · have : a = k := congrArg Prod.fst h1.symm
      simp [dlookup, this]
    · by_cases hk : a = k
      · simp [dlookup, hk]
      · simp only [dlookup, if_neg hk]
        exact ih h1

theorem dmem_iff_mem_keys {β : Type} {d : Dict β} {k : String} :
    dmem d k = true ↔ k ∈ d.map Prod.fst := by
  induction d with
  | nil => simp [dmem, dlookup]
  | cons p rest ih =>
    obtain ⟨a, b⟩ := p
    by_cases hk : a = k
    · simp [dmem, dlookup, hk]
    · simp only [dmem, dlookup, if_neg hk, List.map_cons, List.mem_cons]
      rw [← ih]
      unfold dmem
      constructor
      · exact fun hh => Or.inr hh
      · rintro (hh | hh)
        · exact absurd hh.symm hk
        · exact hh

theorem dlookup_eq_of_mem_nodup {β : Type} {d : Dict β} {k : String} {v : β}
    (hnd : dnodup d) (h : (k, v) ∈ d) : dlookup d k = some v := by
  induction d with
  | nil => simp at h
  | cons p rest ih =>
    obtain ⟨a, b⟩ := p
    unfold dnodup at hnd
    rw [List.map_cons, List.nodup_cons] at hnd
    rcases List.mem_cons.mp h with h1 | h1
    · have ha : a = k := congrArg Prod.fst h1.symm
      have hb : b = v := congrArg Prod.snd h1.symm
      simp [dlookup, ha, hb]
    · have hk : ¬ a = k := by
        intro hk
        exact hnd.1 (by
          subst hk
          exact List.mem_map.mpr ⟨(a, v), h1, rfl⟩)
      simp only [dlookup, if_neg hk]
      exact ih hnd.2 h1

theorem mem_dinsert_elim {β : Type} {d : Dict β} {k : String} {v : β} {p : String × β}
    (h : p ∈ dinsert d k v) : p = (k, v) ∨ p ∈ d := by
  induction d with
  | nil =>
    simp [dinsert] at h
    simp [h]
  | cons q rest ih =>
    obtain ⟨a, b⟩ := q
    by_cases hk : a = k
    · simp only [dinsert, if_pos hk] at h
      rcases List.mem_cons.mp h with h1 | h1
      · exact Or.inl (by simp [h1, hk])
      · exact Or.inr (List.mem_cons_of_mem _ h1)
    · simp only [dinsert, if_neg hk] at h
      rcases List.mem_cons.mp h with h1 | h1
      · exact Or.inr (List.mem_cons.mpr (Or.inl h1))
      · rcases ih h1 with h2 | h2
        · exact Or.inl h2
        · exact Or.inr (List.mem_cons_of_mem _ h2)

theorem dmem_dinsert {β : Type} (d : Dict β) (k g : String) (v : β) :
    dmem (dinsert d k v) g = true ↔ g = k ∨ dmem d g = true := by
  by_cases h : g = k
  · subst h
    simp [dmem, dlookup_dinsert_self]
  · simp [dmem, dlookup_dinsert_ne d v h, h]

theorem keys_dinsert {β : Type} (d : Dict β) (k : String) (v : β) :
    (dinsert d k v).map Prod.fst =
      if dmem d k then d.map Prod.fst else d.map Prod.fst ++ [k] := by
  induction d with
  | nil => simp [dinsert, dmem, dlookup]
  | cons p rest ih =>
    obtain ⟨a, b⟩ := p
    by_cases hk : a = k
    · simp [dinsert, hk, dmem, dlookup]
    · simp only [dinsert, if_neg hk, List.map_cons, ih, dmem, dlookup]
      by_cases hm : (dlookup rest k).isSome <;> simp [hm, hk]

theorem dnodup_dinsert {β : Type} {d : Dict β} (k : String) (v : β)
    (h : dnodup d) : dnodup (dinsert d k v) := by
  unfold dnodup
  rw [keys_dinsert]
  by_cases hm : dmem d k = true
  · rw [if_pos hm]
    exact h
  · rw [if_neg hm, List.nodup_append]
    refine ⟨h, List.nodup_singleton k, ?_⟩
    intro x hx hx2
    rw [List.mem_singleton] at hx2
    subst hx2
    exact hm (dmem_iff_mem_keys.mpr hx)

theorem dnodup_dmap {β γ : Type} {d : Dict β} (f : String → β → γ)
    (h : dnodup d) : dnodup (dmap f d) := by
  unfold dnodup dmap
  rw [List.map_map]
  exact h

theorem dnodup_filter {β : Type} {d : Dict β} (P : String × β → Bool)
    (h : dnodup d) : dnodup (d.filter P) := by
  unfold dnodup
  have hs : (d.filter P).Sublist d := List.filter_sublist d
  exact List.Nodup.sublist (hs.map Prod.fst) h

theorem dnodup_foldl {β γ : Type} {f : Dict β → γ → Dict β} {l : List γ} {d : Dict β}
    (hf : ∀ d x, dnodup d → dnodup (f d x)) (h : dnodup d) :
    dnodup (l.foldl f d) := by
  induction l generalizing d with
  | nil => exact h
  | cons x rest ih => exact ih (hf d x h)

theorem dnodup_dunion {β : Type} {a : Dict β} (b : Dict β)
    (h : dnodup a) : dnodup (dunion a b) :=
  dnodup_foldl (fun d p => dnodup_dinsert p.1 p.2) h

theorem dnodup_nil {β : Type} : dnodup ([] : Dict β) := by
  simp [dnodup]

theorem dlookup_dmap {β γ : Type} (f : String → β → γ) (d : Dict β) (g : String) :
    dlookup (dmap f d) g = (dlookup d g).map (f g) := by
  induction d with
  | nil => simp [dmap, dlookup]
  | cons p rest ih =>
    by_cases hk : p.1 = g
    · subst hk
      simp [dmap, dlookup]
    · simpa [dmap, dlookup, hk] using ih

theorem dlookup_filter_none {β : Type} {d : Dict β} {P : String × β → Bool} {g : String}
    (h : ∀ v : β, P (g, v) = false) : dlookup (d.filter P) g = none := by
  induction d with
  | nil => simp [dlookup]
  | cons p rest ih =>
    by_cases hp : P p
    · rw [List.filter_cons_of_pos hp]
      by_cases hk : p.1 = g
      · exfalso
        have : P (g, p.2) = false := h p.2
        rw [← hk] at this
        simp at this
        rw [hp] at this
        exact Bool.noConfusion this
      · simp [dlookup, hk, ih]
    · rw [List.filter_cons_of_neg hp]
      exact ih

theorem dlookup_dunion {β : Type} (a : Dict β) {b : Dict β} (g : String)
    (hb : dnodup b) :
    dlookup (dunion a b) g =
      match dlookup b g with
      | some v => some v
      | none => dlookup a g := by
  induction b generalizing a with
  | nil => simp [dunion, dlookup]
  | cons p rest ih =>
    obtain ⟨c, w⟩ := p
    unfold dnodup at hb
    rw [List.map_cons, List.nodup_cons] at hb
    have step : dunion a ((c, w) :: rest) = dunion (dinsert a c w) rest := rfl
    rw [step, ih _ hb.2]
    cases hv : dlookup rest g with
    | some v =>
      have hmem : g ∈ rest.map Prod.fst :=
        List.mem_map.mpr ⟨(g, v), mem_of_dlookup hv, rfl⟩
      have hne : ¬ c = g := fun hh => hb.1 (hh ▸ hmem)
      simp [dlookup, hne, hv]
    | none =>
      by_cases hk : c = g
      · subst hk
        simp [dlookup, dlookup_dinsert_self]
      · simp [dlookup, hk, dlookup_dinsert_ne a w (fun hh => hk hh.symm), hv]

theorem dmem_dunion {β : Type} (a : Dict β) {b : Dict β} (g : String) (hb : dnodup b) :
    dmem (dunion a b) g = (dmem a g || dmem b g) := by
  unfold dmem
  rw [dlookup_dunion a g hb]
  cases h : dlookup b g <;> simp

/-! ## Sum lemmas -/

theorem dsum_cons {β : Type} [AddCommMonoid β] (p : String × β) (d : Dict β) :
    dsum (p :: d) = p.2 + dsum d := by
  simp [dsum]

theorem dsum_dinsert_notmem {β : Type} [AddCommMonoid β] {d : Dict β} {k : String}
    (v : β) (h : dmem d k = false) : dsum (dinsert d k v) = dsum d + v := by
  induction d with
  | nil => simp [dinsert, dsum]
  | cons p rest ih =>
    obtain ⟨a, b⟩ := p
    unfold dmem dlookup at h
    by_cases hk : a = k
    · rw [if_pos hk] at h
      simp at h
    · rw [if_neg hk] at h
      rw [dinsert, if_neg hk, dsum_cons, dsum_cons, ih h, add_assoc]

theorem dsum_dinsert_lookup {β : Type} [AddCommGroup β] {d : Dict β} {k : String} {w : β}
    (v : β) (h : dlookup d k = some w) : dsum (dinsert d k v) = dsum d - w + v := by
  induction d with
  | nil => simp [dlookup] at h
  | cons p rest ih =>
    obtain ⟨a, b⟩ := p
    unfold dlookup at h
    by_cases hk : a = k
    · rw [if_pos hk] at h
      have hb : b = w := by simpa using h
      rw [dinsert, if_pos hk, dsum_cons, dsum_cons, hb]
      abel
    · rw [if_neg hk] at h
      rw [dinsert, if_neg hk, dsum_cons, dsum_cons, ih h]
      abel

theorem dsum_daddInt (d : Dict Int) (k : String) (n : Int) :
    dsum (daddInt d k n) = dsum d + n := by
  unfold daddInt
  cases h : dlookup d k with
  | none =>
    rw [dsum_dinsert_notmem _ (by simp [dmem, h])]
    simp
  | some w =>
    rw [dsum_dinsert_lookup _ h]
    simp
    abel

theorem dsum_foldl_daddInt {α : Type} (key : α → String) (tok : α → Int)
    (l : List α) (d : Dict Int) :
    dsum (l.foldl (fun acc e => daddInt acc (key e) (tok e)) d) = dsum d + (l.map tok).sum := by
  induction l generalizing d with
  | nil => simp
  | cons x rest ih =>
    rw [List.foldl_cons, ih, dsum_daddInt]
    simp
    abel

theorem dsum_nonneg {β : Type} [OrderedAddCommMonoid β] {d : Dict β}
    (h : ∀ p ∈ d, 0 ≤ p.2) : 0 ≤ dsum d := by
  induction d with
  | nil => simp [dsum]
  | cons p rest ih =>
    rw [dsum_cons]
    have h1 := h p (List.mem_cons_self p rest)
    have h2 : 0 ≤ dsum rest := ih (fun q hq => h q (List.mem_cons_of_mem _ hq))
    exact add_nonneg h1 h2

theorem value_le_dsum {β : Type} [OrderedAddCommMonoid β] {d : Dict β}
    (h : ∀ p ∈ d, 0 ≤ p.2) {p : String × β}
    (hp : p ∈ d) : p.2 ≤ dsum d := by
  induction d with
  | nil => simp at hp
  | cons q rest ih =>
    rw [dsum_cons]
    have hq0 := h q (List.mem_cons_self q rest)
    rcases List.mem_cons.mp hp with h1 | h1
    · have h2 : 0 ≤ dsum rest := dsum_nonneg (fun r hr => h r (List.mem_cons_of_mem _ hr))
      rw [h1]
      exact le_add_of_nonneg_right h2
    · have h3 := ih (fun r hr => h r (List.mem_cons_of_mem _ hr)) h1
      exact h3.trans (le_add_of_nonneg_left hq0)

theorem dsum_dmap {β γ : Type} [AddCommMonoid γ] (f : String → β → γ) (d : Dict β) :
    dsum (dmap f d) = (d.map (fun p => f p.1 p.2)).sum := by
  unfold dsum dmap
  rw [List.map_map]
  rfl

theorem dsum_dunion_disjoint {β : Type} [AddCommMonoid β] {a b : Dict β}
    (hb : dnodup b) (hdisj : ∀ p ∈ b, dmem a p.1 = false) :
    dsum (dunion a b) = dsum a + dsum b := by
  induction b generalizing a with
  | nil => simp [dunion, dsum]
  | cons p rest ih =>
    obtain ⟨c, w⟩ := p
    unfold dnodup at hb
    rw [List.map_cons, List.nodup_cons] at hb
    have step : dunion a ((c, w) :: rest) = dunion (dinsert a c w) rest := rfl
    have hrest : ∀ p ∈ rest, dmem (dinsert a c w) p.1 = false := by
      intro p hp
      have hne : p.1 ≠ c := by
        intro he
        exact hb.1 (he ▸ List.mem_map.mpr ⟨p, hp, rfl⟩)
      have hmem := hdisj p (List.mem_cons_of_mem _ hp)
      rw [Bool.eq_false_iff]
      intro habs
      rcases (dmem_dinsert a c p.1 w).mp habs with h1 | h1
      · exact hne h1
      · rw [hmem] at h1
        exact Bool.noConfusion h1
    rw [step, ih hb.2 hrest,
      dsum_dinsert_notmem w (hdisj (c, w) (List.mem_cons_self _ _)), dsum_cons]
    abel

/-! ## Maximum-entry lemmas -/

theorem dmaxFrom_eq_or_mem (p : String × ℚ) (l : Dict ℚ) :
    dmaxFrom p l = p ∨ dmaxFrom p l ∈ l := by
  induction l generalizing p with
  | nil => exact Or.inl rfl
  | cons q rest ih =>
    rw [dmaxFrom]
    rcases ih (if p.2 < q.2 then q else p) with h | h
    · rw [h]
      by_cases hc : p.2 < q.2
      · rw [if_pos hc]
        exact Or.inr (List.mem_cons_self _ _)
      · rw [if_neg hc]
        exact Or.inl rfl
    · exact Or.inr (List.mem_cons_of_mem _ h)

theorem dmaxPair_mem {d : Dict ℚ} {kv : String × ℚ} (h : dmaxPair d = some kv) :
    kv ∈ d := by
  cases d with
  | nil => simp [dmaxPair] at h
  | cons p rest =>
    rw [dmaxPair] at h
    have he : dmaxFrom p rest = kv := by simpa using h
    rcases dmaxFrom_eq_or_mem p rest with h1 | h1
    · rw [he] at h1
      exact h1 ▸ List.mem_cons_self _ _
    · rw [he] at h1
      exact List.mem_cons_of_mem _ h1

theorem dmaxPair_isSome {d : Dict ℚ} (h : d ≠ []) : ∃ kv, dmaxPair d = some kv := by
  cases d with
  | nil => exact absurd rfl h
  | cons p rest => exact ⟨dmaxFrom p rest, rfl⟩

/-! ## Rounding lemmas -/

theorem rhe_intCast (n : ℤ) : rhe (n : ℚ) = n := by
  unfold rhe
  rw [Int.floor_intCast]
  norm_num

theorem roundQ4_isQ4 (q : ℚ) : IsQ4 (roundQ4 q) :=
  ⟨rhe (q * 10000), rfl⟩

theorem IsQ4.roundQ4_eq {x : ℚ} (h : IsQ4 x) : roundQ4 x = x := by
  obtain ⟨n, rfl⟩ := h
  unfold roundQ4
  rw [div_mul_cancel₀ (n : ℚ) (by norm_num : (10000 : ℚ) ≠ 0), rhe_intCast]

theorem IsQ4.add {x y : ℚ} (hx : IsQ4 x) (hy : IsQ4 y) : IsQ4 (x + y) := by
  obtain ⟨m, rfl⟩ := hx
  obtain ⟨n, rfl⟩ := hy
  exact ⟨m + n, by push_cast; ring⟩

theorem IsQ4.neg {x : ℚ} (hx : IsQ4 x) : IsQ4 (-x) := by
  obtain ⟨m, rfl⟩ := hx
  exact ⟨-m, by push_cast; ring⟩

theorem IsQ4.sub {x y : ℚ} (hx : IsQ4 x) (hy : IsQ4 y) : IsQ4 (x - y) := by
  rw [sub_eq_add_neg]
  exact hx.add hy.neg

theorem isQ4_one : IsQ4 1 := ⟨10000, by norm_num⟩

theorem isQ4_zero : IsQ4 0 := ⟨0, by norm_num⟩

theorem dsum_isQ4 {d : Dict ℚ} (h : ∀ p ∈ d, IsQ4 p.2) : IsQ4 (dsum d) := by
  induction d with
  | nil => exact isQ4_zero
  | cons p rest ih =>
    rw [dsum_cons]
    exact (h p (List.mem_cons_self _ _)).add (ih (fun q hq => h q (List.mem_cons_of_mem _ hq)))

theorem rhe_nonneg {q : ℚ} (h : 0 ≤ q) : 0 ≤ rhe q := by
  have h0 : (0 : ℤ) ≤ ⌊q⌋ := Int.floor_nonneg.mpr h
  unfold rhe
  split_ifs <;> omega

theorem rhe_le {q : ℚ} {B : ℤ} (h : q ≤ (B : ℚ)) : rhe q ≤ B := by
  have hfl : ⌊q⌋ ≤ B := by
    have h2 := Int.floor_le_floor h
    rwa [Int.floor_intCast] at h2
  unfold rhe
  split_ifs with h1 h2 h3
  · exact hfl
  · rcases lt_or_eq_of_le hfl with hlt | heq
    · omega
    · exfalso
      rw [heq] at h2
      linarith
  · exact hfl
  · rcases lt_or_eq_of_le hfl with hlt | heq
    · omega
    · exfalso
      have hq : q - (⌊q⌋ : ℚ) = 1 / 2 := le_antisymm (not_lt.mp h2) (not_lt.mp h1)
      rw [heq] at hq
      linarith

theorem roundQ4_nonneg {q : ℚ} (h : 0 ≤ q) : 0 ≤ roundQ4 q := by
  unfold roundQ4
  have h2 : (0 : ℤ) ≤ rhe (q * 10000) := rhe_nonneg (mul_nonneg h (by norm_num))
  have h3 : (0 : ℚ) ≤ (rhe (q * 10000) : ℚ) := by exact_mod_cast h2
  linarith

theorem roundQ4_le_one {q : ℚ} (h : q ≤ 1) : roundQ4 q ≤ 1 := by
  unfold roundQ4
  have h2 : rhe (q * 10000) ≤ (10000 : ℤ) := rhe_le (by push_cast; linarith)
  rw [div_le_one (by norm_num)]
  exact_mod_cast h2

/-! ## Parsing lemmas -/

theorem parseAll_map_ok (l : List Entry) : parseAll (l.map Line.ok) = some l := by
  induction l with
  | nil => simp [parseAll]
  | cons e rest ih => simp [parseAll, ih]

theorem parseAll_eq_none_iff (ls : List Line) :
    parseAll ls = none ↔ Line.malformed ∈ ls := by
  induction ls with
  | nil => simp [parseAll]
  | cons l rest ih =>
    cases l with
    | malformed => simp [parseAll]
    | ok e =>
      rw [parseAll]
      simp [ih]

/-! ## List sum splitting -/

theorem sum_map_filter_split {α γ : Type} [AddCommMonoid γ] (l : List α)
    (q : α → Bool) (f : α → γ) :
    (l.map f).sum = ((l.filter q).map f).sum + ((l.filter (fun x => !(q x))).map f).sum := by
  induction l with
  | nil => simp
  | cons x rest ih =>
    by_cases hq : q x
    · rw [List.map_cons, List.sum_cons, List.filter_cons_of_pos hq,
        List.filter_cons_of_neg (by simp [hq]), List.map_cons, List.sum_cons, ih, add_assoc]
    · rw [List.map_cons, List.sum_cons, List.filter_cons_of_neg hq,
        List.filter_cons_of_pos (by simp [hq]), List.map_cons, List.sum_cons, ih]
      abel

/-! ## Rounding-with-correction lemmas -/

theorem droundVals_isQ4 {d : Dict ℚ} : ∀ p ∈ droundVals d, IsQ4 p.2 := by
  intro p hp
  unfold droundVals dmap at hp
  rcases List.mem_map.mp hp with ⟨q, _, hq⟩
  rw [← hq]
  exact roundQ4_isQ4 q.2

theorem roundDiff_eq (d : Dict ℚ) : roundDiff d = 1 - dsum (droundVals d) := by
  unfold roundDiff
  exact (isQ4_one.sub (dsum_isQ4 (fun p hp => droundVals_isQ4 p hp))).roundQ4_eq

theorem droundVals_eq_nil_iff (d : Dict ℚ) : droundVals d = [] ↔ d = [] := by
  unfold droundVals dmap
  simp

theorem dinsert_ne_nil {β : Type} (d : Dict β) (k : String) (v : β) :
    dinsert d k v ≠ [] := by
  cases d with
  | nil => simp [dinsert]
  | cons p rest =>
    obtain ⟨a, b⟩ := p
    unfold dinsert
    split_ifs <;> simp

theorem roundCorrect_eq_nil_iff (d : Dict ℚ) : roundCorrect d = [] ↔ d = [] := by
  unfold roundCorrect
  split_ifs with h
  · cases hm : dmaxPair (droundVals d) with
    | some kv =>
      constructor
      · intro habs
        exact absurd habs (dinsert_ne_nil _ _ _)
      · intro habs
        exact absurd ((droundVals_eq_nil_iff d).mpr habs) h.2
    | none =>
      exact droundVals_eq_nil_iff d
  · exact droundVals_eq_nil_iff d

theorem roundCorrect_of_diff_zero {d : Dict ℚ} (h : roundDiff d = 0) :
    roundCorrect d = droundVals d := by
  unfold roundCorrect
  rw [h]
  simp

theorem roundCorrect_sum {d : Dict ℚ} (hnd : dnodup d) (hne : d ≠ []) :
    dsum (roundCorrect d) = 1 := by
  have hrnd : dnodup (droundVals d) := dnodup_dmap _ hnd
  have hrne : droundVals d ≠ [] := fun habs => hne ((droundVals_eq_nil_iff d).mp habs)
  unfold roundCorrect
  split_ifs with h
  · cases hkv : dmaxPair (droundVals d) with
    | none =>
      obtain ⟨kv, hkv2⟩ := dmaxPair_isSome hrne
      rw [hkv] at hkv2
      exact Option.noConfusion hkv2
    | some kv =>
      show dsum (dinsert (droundVals d) kv.1
        (roundQ4 ((dlookup (droundVals d) kv.1).getD 0 + roundDiff d))) = 1
      have hmem : kv ∈ droundVals d := dmaxPair_mem hkv
      have hlook : dlookup (droundVals d) kv.1 = some kv.2 := by
        have hmem2 : (kv.1, kv.2) ∈ droundVals d := by simpa using hmem
        exact dlookup_eq_of_mem_nodup hrnd hmem2
      rw [hlook]
      have hq2 : IsQ4 kv.2 := droundVals_isQ4 kv hmem
      have hqd : IsQ4 (roundDiff d) := roundQ4_isQ4 _
      have hinner : roundQ4 (kv.2 + roundDiff d) = kv.2 + roundDiff d :=
        (hq2.add hqd).roundQ4_eq
      have hrw : (some kv.2).getD (0 : ℚ) = kv.2 := rfl
      rw [hrw, hinner, dsum_dinsert_lookup _ hlook, roundDiff_eq]
      ring
  · rw [Classical.not_and_iff_or_not_not] at h
    rcases h with h | h
    · have hd0 : roundDiff d = 0 := not_not.mp h
      rw [roundDiff_eq] at hd0
      linarith
    · exact absurd hrne h

/-! ## Key-set preservation through the pipeline -/

theorem dmem_dmap {β γ : Type} (f : String → β → γ) (d : Dict β) (g : String) :
    dmem (dmap f d) g = dmem d g := by
  unfold dmem
  rw [dlookup_dmap]
  cases dlookup d g <;> rfl

theorem dmem_normalizeD (d : Dict ℚ) (g : String) :
    dmem (normalizeD d) g = dmem d g := by
  unfold normalizeD
  split_ifs with h
  · exact dmem_dmap _ d g
  · rfl

theorem dmem_roundCorrect (d : Dict ℚ) (g : String) :
    dmem (roundCorrect d) g = dmem d g := by
  have hbase : dmem (droundVals d) g = dmem d g := dmem_dmap _ d g
  unfold roundCorrect
  split_ifs with h
  · cases hm : dmaxPair (droundVals d) with
    | some kv =>
      have hmem : kv ∈ droundVals d := dmaxPair_mem hm
      have hself : dmem (droundVals d) kv.1 = true := by
        have hmem2 : (kv.1, kv.2) ∈ droundVals d := by simpa using hmem
        unfold dmem
        rw [dlookup_isSome_of_mem hmem2]
      by_cases hg : g = kv.1
      · have h1 : dmem (dinsert (droundVals d) kv.1
            (roundQ4 ((dlookup (droundVals d) kv.1).getD 0 + roundDiff d))) g = true := by
          unfold dmem
          rw [hg, dlookup_dinsert_self]
          rfl
        rw [h1, ← hbase, hg]
        exact hself.symm
      · unfold dmem
        rw [dlookup_dinsert_ne _ _ hg]
        exact hbase
    | none => exact hbase
  · exact hbase

theorem dmem_false_lookup_none {β : Type} {d : Dict β} {g : String}
    (h : dmem d g = false) : dlookup d g = none := by
  unfold dmem at h
  exact Option.not_isSome_iff_eq_none.mp (by simp [h])

/-! ## Pipeline nodup lemmas -/

theorem dnodup_mergedTokensF (cfg : Config) (fd : List Entry) :
    dnodup (mergedTokensF cfg fd) :=
  dnodup_foldl (fun d e h => dnodup_dinsert _ _ h) dnodup_nil

theorem dnodup_rawDistF (cfg : Config) (fd : List Entry)
    (hfix : dnodup cfg.fixedProportions) : dnodup (rawDistF cfg fd) := by
  unfold rawDistF
  split_ifs with h
  · exact dnodup_dmap _ (dnodup_mergedTokensF cfg fd)
  · exact hfix

theorem dnodup_applyThr (mt : Option ℚ) {fixed dist : Dict ℚ}
    (hfix : dnodup fixed) (hd : dnodup dist) : dnodup (applyThr mt fixed dist) := by
  cases mt with
  | none => exact hd
  | some t =>
    rw [applyThr]
    split_ifs with h1 h2 h3
    · exact hd
    · exact hd
    · exact dnodup_dunion _ (dnodup_dunion _ hfix)
    · exact hd

theorem dnodup_normalizeD {d : Dict ℚ} (hd : dnodup d) : dnodup (normalizeD d) := by
  unfold normalizeD
  split_ifs with h
  · exact dnodup_dmap _ hd
  · exact hd

theorem dnodup_roundCorrect {d : Dict ℚ} (hd : dnodup d) : dnodup (roundCorrect d) := by
  unfold roundCorrect
  split_ifs with h
  · cases hm : dmaxPair (droundVals d) with
    | some kv => exact dnodup_dinsert _ _ (dnodup_dmap _ hd)
    | none => exact dnodup_dmap _ hd
  · exact dnodup_dmap _ hd

theorem dnodup_normedF (cfg : Config) (fd : List Entry)
    (hfix : dnodup cfg.fixedProportions) : dnodup (normedF cfg fd) :=
  dnodup_normalizeD (dnodup_applyThr _ hfix (dnodup_rawDistF cfg fd hfix))

theorem dnodup_finalF (cfg : Config) (fd : List Entry)
    (hfix : dnodup cfg.fixedProportions) : dnodup (finalF cfg fd) :=
  dnodup_roundCorrect (dnodup_normedF cfg fd hfix)

theorem dmem_of_mem {β : Type} {d : Dict β} {p : String × β} (hp : p ∈ d) :
    dmem d p.1 = true := by
  unfold dmem
  rw [dlookup_isSome_of_mem (show (p.1, p.2) ∈ d by simpa using hp)]

theorem bumpsD_nil_of_fixed_keys {t : ℚ} {fixed dist : Dict ℚ}
    (hkeys : ∀ p ∈ dist, dmem fixed p.1 = true) : bumpsD t fixed dist = [] := by
  unfold bumpsD
  rw [List.filter_eq_nil_iff.mpr (fun p hp => by simp [hkeys p hp])]
  rfl

theorem applyThr_of_fixed_keys (mt : Option ℚ) {fixed dist : Dict ℚ}
    (hkeys : ∀ p ∈ dist, dmem fixed p.1 = true) : applyThr mt fixed dist = dist := by
  cases mt with
  | none => rfl
  | some t =>
    rw [applyThr]
    split_ifs with h1 h2 h3
    · rfl
    · rfl
    · exact absurd (bumpsD_nil_of_fixed_keys hkeys) h2
    · rfl

theorem rawDistF_of_leftover_nonpos {cfg : Config} {fd : List Entry}
    (h0 : leftoverF cfg fd ≤ 0) : rawDistF cfg fd = cfg.fixedProportions := by
  unfold rawDistF
  rw [if_neg (not_lt.mpr h0)]

theorem dnodup_dspRawF (cfg : Config) (fd : List Entry) : dnodup (dspRawF cfg fd) := by
  unfold dspRawF
  refine dnodup_foldl (fun d e h => ?_) dnodup_nil
  cases dlookup (finalF cfg fd) (mergeTarget cfg e) with
  | none => exact h
  | some p =>
    cases dlookup (mergedTokensF cfg fd) (mergeTarget cfg e) with
    | none => exact h
    | some tot =>
      simp only []
      split_ifs with ht
      · exact dnodup_dinsert _ _ h
      · exact h

/-! ## Threshold-stage lemmas -/

theorem applyThr_eq_rewrite {t : ℚ} {fixed dist : Dict ℚ}
    (ht : ¬ t = 0) (hb : bumpsD t fixed dist ≠ [])
    (ha : 0 < dsum (toAdjustD fixed (bumpsD t fixed dist) dist)) :
    applyThr (some t) fixed dist =
      dunion (dunion fixed (bumpsD t fixed dist))
        (dmap
          (fun _ v => v * ((1 - dsum fixed - dsum (bumpsD t fixed dist)) /
            dsum (toAdjustD fixed (bumpsD t fixed dist) dist)))
          (toAdjustD fixed (bumpsD t fixed dist) dist)) := by
  rw [applyThr, if_neg ht, if_neg hb, if_pos ha]

theorem applyThr_eq_self_of_no_rewrite {t : ℚ} {fixed dist : Dict ℚ}
    (h : bumpsD t fixed dist = [] ∨
      dsum (toAdjustD fixed (bumpsD t fixed dist) dist) ≤ 0) :
    applyThr (some t) fixed dist = dist := by
  rw [applyThr]
  split_ifs with h1 h2 h3
  · rfl
  · rfl
  · rcases h with h | h
    · exact absurd h h2
    · exact absurd h3 (not_lt.mpr h)
  · rfl

theorem dlookup_dunion_of_none {β : Type} (a : Dict β) {b : Dict β} {g : String}
    (hb : dnodup b) (h : dlookup b g = none) :
    dlookup (dunion a b) g = dlookup a g := by
  rw [dlookup_dunion a g hb, h]

theorem dlookup_dunion_of_some {β : Type} (a : Dict β) {b : Dict β} {g : String} {v : β}
    (hb : dnodup b) (h : dlookup b g = some v) :
    dlookup (dunion a b) g = some v := by
  rw [dlookup_dunion a g hb, h]

theorem dlookup_dmap_none {β γ : Type} (f : String → β → γ) {d : Dict β} {g : String}
    (h : dlookup d g = none) : dlookup (dmap f d) g = none := by
  rw [dlookup_dmap, h]
  rfl

theorem mem_bumpsD {t : ℚ} {fixed dist : Dict ℚ} {g : String} {v : ℚ}
    (hgd : (g, v) ∈ dist) (hgf : dmem fixed g = false) (hlt : v < t) :
    (g, t) ∈ bumpsD t fixed dist := by
  unfold bumpsD dmap
  exact List.mem_map.mpr ⟨(g, v), List.mem_filter.mpr ⟨hgd, by simp [hgf, hlt]⟩, rfl⟩

theorem dlookup_bumpsD_val {t : ℚ} {fixed dist : Dict ℚ} {g : String} {w : ℚ}
    (h : dlookup (bumpsD t fixed dist) g = some w) : w = t := by
  unfold bumpsD at h
  rw [dlookup_dmap] at h
  cases hm : dlookup (dist.filter (fun p => !(dmem fixed p.1) && decide (p.2 < t))) g with
  | none =>
    rw [hm] at h
    simp at h
  | some u =>
    rw [hm] at h
    simp at h
    exact h.symm

theorem dlookup_bumpsD_none_of_fixed {t : ℚ} {fixed dist : Dict ℚ} {g : String}
    (h : dmem fixed g = true) : dlookup (bumpsD t fixed dist) g = none := by
  unfold bumpsD
  rw [dlookup_dmap, dlookup_filter_none (fun v => by simp [h])]
  rfl

theorem dlookup_toAdjustD_none_of_fixed {fixed bumps dist : Dict ℚ} {g : String}
    (h : dmem fixed g = true) : dlookup (toAdjustD fixed bumps dist) g = none := by
  unfold toAdjustD
  exact dlookup_filter_none (fun v => by simp [h])

theorem dlookup_toAdjustD_none_of_bumped {fixed bumps dist : Dict ℚ} {g : String}
    (h : dmem bumps g = true) : dlookup (toAdjustD fixed bumps dist) g = none := by
  unfold toAdjustD
  exact dlookup_filter_none (fun v => by simp [h])

theorem dnodup_bumpsD (t : ℚ) (fixed : Dict ℚ) {dist : Dict ℚ} (hd : dnodup dist) :
    dnodup (bumpsD t fixed dist) :=
  dnodup_dmap _ (dnodup_filter _ hd)

theorem dnodup_toAdjustD (fixed bumps : Dict ℚ) {dist : Dict ℚ} (hd : dnodup dist) :
    dnodup (toAdjustD fixed bumps dist) :=
  dnodup_filter _ hd

/-- The value a fixed group carries in the raw (Stage 3) distribution is its
configured fixed proportion. -/
theorem rawDistF_fixed_val {cfg : Config} {fd : List Entry} {g : String} {v : ℚ}
    (hgf : dmem cfg.fixedProportions g = true)
    (hv : dlookup (rawDistF cfg fd) g = some v) :
    dlookup cfg.fixedProportions g = some v := by
  unfold rawDistF at hv
  split_ifs at hv with hl
  · rw [dlookup_dmap] at hv
    cases hm : dlookup (mergedTokensF cfg fd) g with
    | none =>
      rw [hm] at hv
      simp at hv
    | some tok =>
      rw [hm] at hv
      simp only [Option.map_some'] at hv
      cases hf : dlookup cfg.fixedProportions g with
      | none =>
        unfold dmem at hgf
        rw [hf] at hgf
        simp at hgf
      | some w =>
        rw [hf] at hv
        simp only [Option.getD_some] at hv
        rw [← Option.some_inj.mp hv]
  · exact hv

/-- The threshold stage never changes the value of a fixed group that is
present in the incoming distribution. -/
theorem applyThr_preserves_fixed {mt : Option ℚ} {cfg : Config} {fd : List Entry}
    {g : String} {v : ℚ}
    (hfix : dnodup cfg.fixedProportions)
    (hgf : dmem cfg.fixedProportions g = true)
    (hv : dlookup (rawDistF cfg fd) g = some v) :
    dlookup (applyThr mt cfg.fixedProportions (rawDistF cfg fd)) g = some v := by
  have hfv : dlookup cfg.fixedProportions g = some v := rawDistF_fixed_val hgf hv
  have hD : dnodup (rawDistF cfg fd) := dnodup_rawDistF cfg fd hfix
  cases mt with
  | none => exact hv
  | some t =>
    by_cases ht : t = 0
    · rw [applyThr, if_pos ht]
      exact hv
    · by_cases hb : bumpsD t cfg.fixedProportions (rawDistF cfg fd) = []
      · rw [applyThr_eq_self_of_no_rewrite (Or.inl hb)]
        exact hv
      · by_cases ha : 0 < dsum (toAdjustD cfg.fixedProportions
            (bumpsD t cfg.fixedProportions (rawDistF cfg fd)) (rawDistF cfg fd))
        · rw [applyThr_eq_rewrite ht hb ha,
            dlookup_dunion_of_none _ (dnodup_dmap _ (dnodup_toAdjustD _ _ hD))
              (dlookup_dmap_none _ (dlookup_toAdjustD_none_of_fixed hgf)),
            dlookup_dunion_of_none _ (dnodup_bumpsD _ _ hD)
              (dlookup_bumpsD_none_of_fixed hgf)]
          exact hfv
        · rw [applyThr_eq_self_of_no_rewrite (Or.inr (not_lt.mp ha))]
          exact hv

/-- `total_available_tokens` is the plain sum of the surviving records'
token counts. -/
theorem totalAvailableF_eq_sum (cfg : Config) (fd : List Entry) :
    totalAvailableF cfg fd = (fd.map etok).sum := by
  unfold totalAvailableF mergedTokensF
  rw [dsum_foldl_daddInt (fun e => mergeTarget cfg e) etok fd []]
  simp [dsum]

/-! ## Sum lemmas for the raw and threshold-adjusted distributions -/

theorem dsum_dmap_mul (c : ℚ) (d : Dict ℚ) :
    dsum (dmap (fun _ v => v * c) d) = dsum d * c := by
  induction d with
  | nil => simp [dsum, dmap]
  | cons p rest ih =>
    unfold dmap at ih ⊢
    rw [List.map_cons, dsum_cons, dsum_cons, ih, add_mul]

theorem sum_div_mul (l : List (String × Int)) (L c : ℚ) :
    (l.map (fun p => ((p.2 : ℚ) / L) * c)).sum = ((dsum l : ℤ) : ℚ) / L * c := by
  induction l with
  | nil => simp [dsum]
  | cons p rest ih =>
    rw [List.map_cons, List.sum_cons, ih, dsum_cons]
    push_cast
    ring

theorem mem_dmap_elim {β γ : Type} {f : String → β → γ} {d : Dict β} {p : String × γ}
    (hp : p ∈ dmap f d) : ∃ p0 ∈ d, p = (p0.1, f p0.1 p0.2) := by
  unfold dmap at hp
  rcases List.mem_map.mp hp with ⟨p0, h0, he⟩
  exact ⟨p0, h0, he.symm⟩

theorem mem_bumpsD_elim {t : ℚ} {fixed dist : Dict ℚ} {p : String × ℚ}
    (hp : p ∈ bumpsD t fixed dist) :
    dmem fixed p.1 = false ∧ p.2 = t ∧ ∃ v, (p.1, v) ∈ dist ∧ v < t := by
  unfold bumpsD at hp
  rcases mem_dmap_elim hp with ⟨p0, h0, he⟩
  rcases List.mem_filter.mp h0 with ⟨hmem, hcond⟩
  have h1 : dmem fixed p0.1 = false ∧ p0.2 < t := by
    rcases Bool.and_eq_true _ _ |>.mp hcond with ⟨hc1, hc2⟩
    exact ⟨by simpa using hc1, of_decide_eq_true hc2⟩
  subst he
  exact ⟨h1.1, rfl, ⟨p0.2, by simpa using hmem, h1.2⟩⟩

theorem mem_toAdjustD_elim {fixed bumps dist : Dict ℚ} {p : String × ℚ}
    (hp : p ∈ toAdjustD fixed bumps dist) :
    p ∈ dist ∧ dmem fixed p.1 = false ∧ dmem bumps p.1 = false := by
  unfold toAdjustD at hp
  rcases List.mem_filter.mp hp with ⟨hmem, hcond⟩
  rcases Bool.and_eq_true _ _ |>.mp hcond with ⟨hc1, hc2⟩
  exact ⟨hmem, by simpa using hc1, by simpa using hc2⟩

/-- Splitting a mapped sum along a predicate and its complement. -/
theorem sum_map_filter_split2 {α γ : Type} [AddCommMonoid γ] (l : List α)
    (q r : α → Bool) (hqr : ∀ a, r a = !(q a)) (f : α → γ) :
    (l.map f).sum = ((l.filter q).map f).sum + ((l.filter r).map f).sum := by
  induction l with
  | nil => simp
  | cons x rest ih =>
    by_cases hq : q x
    · rw [List.map_cons, List.sum_cons, List.filter_cons_of_pos hq,
        List.filter_cons_of_neg (by rw [hqr x, hq]; exact Bool.noConfusion),
        List.map_cons, List.sum_cons, ih, add_assoc]
    · have hqx : q x = false := by
        rcases Bool.eq_false_or_eq_true (q x) with h | h
        · rw [h] at hq
          exact absurd rfl hq
        · exact h
      rw [List.map_cons, List.sum_cons, List.filter_cons_of_neg hq,
        List.filter_cons_of_pos (by rw [hqr x, hqx]; rfl),
        List.map_cons, List.sum_cons, ih]
      abel

/-- The mapped sum over pairs whose keys all carry a fixed proportion, when
those keys are exactly the fixed keys, is the sum of the fixed values. -/
theorem sum_fixed_filter_part {fixed : Dict ℚ} (hfix : dnodup fixed)
    (l : List (String × Int)) (L c : ℚ)
    (hl : ∀ p ∈ l, dmem fixed p.1 = true)
    (hnd : (l.map Prod.fst).Nodup)
    (hiff : ∀ k, k ∈ l.map Prod.fst ↔ k ∈ fixed.map Prod.fst) :
    (l.map (fun p => (dlookup fixed p.1).getD (((p.2 : ℚ) / L) * c))).sum = dsum fixed := by
  have hcong1 : l.map (fun p => (dlookup fixed p.1).getD (((p.2 : ℚ) / L) * c)) =
      l.map (fun p => (dlookup fixed p.1).getD 0) := by
    apply List.map_congr_left
    intro p hp
    have hq : dmem fixed p.1 = true := hl p hp
    unfold dmem at hq
    rcases Option.isSome_iff_exists.mp hq with ⟨w, hw⟩
    rw [hw]
    rfl
  rw [hcong1]
  have hperm := (List.perm_ext_iff_of_nodup hnd hfix).mpr hiff
  have hcong2 : fixed.map (fun p => (dlookup fixed p.1).getD 0) = fixed.map Prod.snd := by
    apply List.map_congr_left
    intro p hp
    show (dlookup fixed p.1).getD 0 = p.2
    rw [dlookup_eq_of_mem_nodup hfix (show (p.1, p.2) ∈ fixed by simpa using hp)]
    rfl
  calc (l.map (fun p => (dlookup fixed p.1).getD 0)).sum
      = ((l.map Prod.fst).map (fun k => (dlookup fixed k).getD 0)).sum := by
        rw [List.map_map]
        exact congrArg List.sum (List.map_congr_left (fun p hp => rfl))
    _ = ((fixed.map Prod.fst).map (fun k => (dlookup fixed k).getD 0)).sum :=
        (hperm.map (fun k => (dlookup fixed k).getD 0)).sum_eq
    _ = (fixed.map (fun p => (dlookup fixed p.1).getD 0)).sum := by
        rw [List.map_map]
        exact congrArg List.sum (List.map_congr_left (fun p hp => rfl))
    _ = (fixed.map Prod.snd).sum := by rw [hcong2]
    _ = dsum fixed := rfl

/-- The mapped sum over pairs with no fixed proportion is the proportional
share of their token total. -/
theorem sum_nonfixed_filter_part {fixed : Dict ℚ}
    (l : List (String × Int)) (L c : ℚ)
    (hl : ∀ p ∈ l, dmem fixed p.1 = false) :
    (l.map (fun p => (dlookup fixed p.1).getD (((p.2 : ℚ) / L) * c))).sum =
      ((dsum l : ℤ) : ℚ) / L * c := by
  have hcong : l.map (fun p => (dlookup fixed p.1).getD (((p.2 : ℚ) / L) * c)) =
      l.map (fun p => ((p.2 : ℚ) / L) * c) := by
    apply List.map_congr_left
    intro p hp
    rw [dmem_false_lookup_none (hl p hp)]
    rfl
  rw [hcong, sum_div_mul]

/-- When every fixed group has tokens and there are leftover tokens, the
raw (Stage 3) proportions sum to exactly 1. -/
theorem rawDistF_sum_one {cfg : Config} {fd : List Entry}
    (hfix : dnodup cfg.fixedProportions)
    (hleft : 0 < leftoverF cfg fd)
    (hkeys : ∀ p ∈ cfg.fixedProportions, dmem (mergedTokensF cfg fd) p.1 = true) :
    dsum (rawDistF cfg fd) = 1 := by
  have hMnd : dnodup (mergedTokensF cfg fd) := dnodup_mergedTokensF cfg fd
  unfold rawDistF
  rw [if_pos hleft, dsum_dmap]
  show ((mergedTokensF cfg fd).map (fun p => (dlookup cfg.fixedProportions p.1).getD
      (((p.2 : ℚ) / ((leftoverF cfg fd : ℤ) : ℚ)) * (1 - fixedSum cfg)))).sum = 1
  rw [sum_map_filter_split2 (mergedTokensF cfg fd)
    (fun p => dmem cfg.fixedProportions p.1)
    (fun p => !(dmem cfg.fixedProportions p.1))
    (fun a => rfl)]
  have hl1 : ∀ p ∈ (mergedTokensF cfg fd).filter
      (fun p => dmem cfg.fixedProportions p.1), dmem cfg.fixedProportions p.1 = true := by
    intro p hp
    simpa using (List.mem_filter.mp hp).2
  have hnd1 : (((mergedTokensF cfg fd).filter
      (fun p => dmem cfg.fixedProportions p.1)).map Prod.fst).Nodup :=
    dnodup_filter _ hMnd
  have hiff1 : ∀ k, (k ∈ ((mergedTokensF cfg fd).filter
      (fun p => dmem cfg.fixedProportions p.1)).map Prod.fst) ↔
      k ∈ cfg.fixedProportions.map Prod.fst := by
    intro k
    constructor
    · intro hk
      rcases List.mem_map.mp hk with ⟨p, hp, he⟩
      have hq : dmem cfg.fixedProportions p.1 = true := by
        simpa using (List.mem_filter.mp hp).2
      rw [← he]
      exact dmem_iff_mem_keys.mp hq
    · intro hk
      rcases List.mem_map.mp hk with ⟨p, hp, he⟩
      have hmm : dmem (mergedTokensF cfg fd) p.1 = true := hkeys p hp
      unfold dmem at hmm
      rcases Option.isSome_iff_exists.mp hmm with ⟨tok, htok⟩
      have hpm : (p.1, tok) ∈ (mergedTokensF cfg fd).filter
          (fun p => dmem cfg.fixedProportions p.1) := by
        apply List.mem_filter.mpr
        refine ⟨mem_of_dlookup htok, ?_⟩
        show dmem cfg.fixedProportions p.1 = true
        exact dmem_of_mem hp
      rw [← he]
      exact List.mem_map.mpr ⟨(p.1, tok), hpm, rfl⟩
  have hl2 : ∀ p ∈ (mergedTokensF cfg fd).filter
      (fun p => !(dmem cfg.fixedProportions p.1)), dmem cfg.fixedProportions p.1 = false := by
    intro p hp
    simpa using (List.mem_filter.mp hp).2
  rw [sum_fixed_filter_part hfix ((mergedTokensF cfg fd).filter
      (fun p => dmem cfg.fixedProportions p.1)) ((leftoverF cfg fd : ℤ) : ℚ)
      (1 - fixedSum cfg) hl1 hnd1 hiff1,
    sum_nonfixed_filter_part ((mergedTokensF cfg fd).filter
      (fun p => !(dmem cfg.fixedProportions p.1))) ((leftoverF cfg fd : ℤ) : ℚ)
      (1 - fixedSum cfg) hl2]
  have hlz : dsum ((mergedTokensF cfg fd).filter
      (fun p => !(dmem cfg.fixedProportions p.1))) = leftoverF cfg fd := rfl
  rw [hlz]
  have hne : ((leftoverF cfg fd : ℤ) : ℚ) ≠ 0 := by
    have h2 : (0 : ℚ) < ((leftoverF cfg fd : ℤ) : ℚ) := by exact_mod_cast hleft
    exact ne_of_gt h2
  rw [div_self hne, one_mul]
  show dsum cfg.fixedProportions + (1 - dsum cfg.fixedProportions) = 1
  ring

/-- When the threshold stage rewrites the distribution, the result sums to
exactly 1. -/
theorem applyThr_rewrite_sum {t : ℚ} {fixed dist : Dict ℚ}
    (hfixnd : dnodup fixed) (hdnd : dnodup dist)
    (ht0 : ¬ t = 0) (hb : bumpsD t fixed dist ≠ [])
    (ha : 0 < dsum (toAdjustD fixed (bumpsD t fixed dist) dist)) :
    dsum (applyThr (some t) fixed dist) = 1 := by
  rw [applyThr_eq_rewrite ht0 hb ha]
  have hBnd : dnodup (bumpsD t fixed dist) := dnodup_bumpsD _ _ hdnd
  have hAnd : dnodup (toAdjustD fixed (bumpsD t fixed dist) dist) :=
    dnodup_toAdjustD _ _ hdnd
  have hdisj1 : ∀ p ∈ bumpsD t fixed dist, dmem fixed p.1 = false :=
    fun p hp => (mem_bumpsD_elim hp).1
  have hdisj2 : ∀ p ∈ dmap
      (fun _ v => v * ((1 - dsum fixed - dsum (bumpsD t fixed dist)) /
        dsum (toAdjustD fixed (bumpsD t fixed dist) dist)))
      (toAdjustD fixed (bumpsD t fixed dist) dist),
      dmem (dunion fixed (bumpsD t fixed dist)) p.1 = false := by
    intro p hp
    rcases mem_dmap_elim hp with ⟨p0, h0, he⟩
    rcases mem_toAdjustD_elim h0 with ⟨_, hf0, hb0⟩
    rw [he]
    show dmem (dunion fixed (bumpsD t fixed dist)) p0.1 = false
    rw [dmem_dunion _ _ hBnd, hf0, hb0]
    rfl
  have hane : dsum (toAdjustD fixed (bumpsD t fixed dist) dist) ≠ 0 := ne_of_gt ha
  rw [dsum_dunion_disjoint (dnodup_dmap _ hAnd) hdisj2,
    dsum_dunion_disjoint hBnd hdisj1, dsum_dmap_mul,
    mul_comm (dsum (toAdjustD fixed (bumpsD t fixed dist) dist)),
    div_mul_cancel₀ _ hane]
  ring

/-! ## Nonnegativity and key-preservation invariants -/

theorem mergedTokensF_nonneg {cfg : Config} {fd : List Entry}
    (htok : ∀ e ∈ fd, 0 ≤ etok e) :
    ∀ p ∈ mergedTokensF cfg fd, 0 ≤ p.2 := by
  unfold mergedTokensF
  have hgen : ∀ (l : List Entry) (acc : Dict Int), (∀ e ∈ l, 0 ≤ etok e) →
      (∀ p ∈ acc, 0 ≤ p.2) →
      ∀ p ∈ l.foldl (fun acc e => daddInt acc (mergeTarget cfg e) (etok e)) acc,
        0 ≤ p.2 := by
    intro l
    induction l with
    | nil => exact fun acc _ hacc => hacc
    | cons e rest ih =>
      intro acc hl hacc
      apply ih
      · exact fun x hx => hl x (List.mem_cons_of_mem _ hx)
      · intro p hp
        unfold daddInt at hp
        rcases mem_dinsert_elim hp with h1 | h1
        · rw [h1]
          show (0 : ℤ) ≤ (dlookup acc (mergeTarget cfg e)).getD 0 + etok e
          have he : 0 ≤ etok e := hl e (List.mem_cons_self _ _)
          cases hc : dlookup acc (mergeTarget cfg e) with
          | none => simpa using he
          | some w =>
            have hw : 0 ≤ w := hacc (mergeTarget cfg e, w) (mem_of_dlookup hc)
            simp only [Option.getD_some]
            exact add_nonneg hw he
        · exact hacc p h1
  exact hgen fd [] htok (by simp)

theorem dunion_values {β : Type} {a b : Dict β} (P : β → Prop)
    (ha : ∀ p ∈ a, P p.2) (hb : ∀ p ∈ b, P p.2) :
    ∀ p ∈ dunion a b, P p.2 := by
  induction b generalizing a with
  | nil => exact ha
  | cons q rest ih =>
    intro p hp
    have step : dunion a (q :: rest) = dunion (dinsert a q.1 q.2) rest := rfl
    rw [step] at hp
    refine ih (fun r hr => ?_) (fun r hr => hb r (List.mem_cons_of_mem _ hr)) p hp
    rcases mem_dinsert_elim hr with h1 | h1
    · rw [h1]
      exact hb q (List.mem_cons_self _ _)
    · exact ha r h1

theorem rawDistF_nonneg {cfg : Config} {fd : List Entry}
    (htok : ∀ e ∈ fd, 0 ≤ etok e)
    (hfv : ∀ p ∈ cfg.fixedProportions, 0 ≤ p.2 ∧ p.2 ≤ 1)
    (hfs : fixedSum cfg ≤ 1) :
    ∀ p ∈ rawDistF cfg fd, 0 ≤ p.2 := by
  unfold rawDistF
  split_ifs with hl
  · intro p hp
    rcases mem_dmap_elim hp with ⟨p0, h0, he⟩
    rw [he]
    show (0 : ℚ) ≤ (dlookup cfg.fixedProportions p0.1).getD
      (((p0.2 : ℚ) / ((leftoverF cfg fd : ℤ) : ℚ)) * (1 - fixedSum cfg))
    cases hc : dlookup cfg.fixedProportions p0.1 with
    | some w =>
      simp only [Option.getD_some]
      exact (hfv (p0.1, w) (mem_of_dlookup hc)).1
    | none =>
      simp only [Option.getD_none]
      have h1 : (0 : ℚ) ≤ (p0.2 : ℚ) := by
        exact_mod_cast mergedTokensF_nonneg htok p0 h0
      have h2 : (0 : ℚ) < ((leftoverF cfg fd : ℤ) : ℚ) := by exact_mod_cast hl
      have h3 : (0 : ℚ) ≤ 1 - fixedSum cfg := by linarith
      exact mul_nonneg (div_nonneg h1 h2.le) h3
  · exact fun p hp => (hfv p hp).1

theorem applyThr_nonneg {mt : Option ℚ} {cfg : Config} {fd : List Entry}
    (hfv : ∀ p ∈ cfg.fixedProportions, 0 ≤ p.2 ∧ p.2 ≤ 1)
    (hD0 : ∀ p ∈ rawDistF cfg fd, 0 ≤ p.2)
    (hthr : ∀ t, mt = some t →
      dsum (bumpsD t cfg.fixedProportions (rawDistF cfg fd)) ≤ 1 - fixedSum cfg) :
    ∀ p ∈ applyThr mt cfg.fixedProportions (rawDistF cfg fd), 0 ≤ p.2 := by
  cases mt with
  | none => exact hD0
  | some t =>
    by_cases ht0 : t = 0
    · rw [applyThr, if_pos ht0]
      exact hD0
    · by_cases hb : bumpsD t cfg.fixedProportions (rawDistF cfg fd) = []
      · rw [applyThr_eq_self_of_no_rewrite (Or.inl hb)]
        exact hD0
      · by_cases ha : 0 < dsum (toAdjustD cfg.fixedProportions
            (bumpsD t cfg.fixedProportions (rawDistF cfg fd)) (rawDistF cfg fd))
        · rw [applyThr_eq_rewrite ht0 hb ha]
          have htpos : 0 ≤ t := by
            rcases List.exists_mem_of_ne_nil _ hb with ⟨q, hq⟩
            rcases mem_bumpsD_elim hq with ⟨_, _, v, hvmem, hvlt⟩
            have hv0 : 0 ≤ v := hD0 (q.1, v) hvmem
            linarith
          have hbv : ∀ p ∈ bumpsD t cfg.fixedProportions (rawDistF cfg fd),
              (0 : ℚ) ≤ p.2 := by
            intro p hp
            rw [(mem_bumpsD_elim hp).2.1]
            exact htpos
          have hscale : 0 ≤ (1 - dsum cfg.fixedProportions -
              dsum (bumpsD t cfg.fixedProportions (rawDistF cfg fd))) /
              dsum (toAdjustD cfg.fixedProportions
                (bumpsD t cfg.fixedProportions (rawDistF cfg fd)) (rawDistF cfg fd)) := by
            apply div_nonneg _ ha.le
            have := hthr t rfl
            unfold fixedSum at this
            linarith
          have hadj : ∀ p ∈ dmap
              (fun _ v => v * ((1 - dsum cfg.fixedProportions -
                dsum (bumpsD t cfg.fixedProportions (rawDistF cfg fd))) /
                dsum (toAdjustD cfg.fixedProportions
                  (bumpsD t cfg.fixedProportions (rawDistF cfg fd)) (rawDistF cfg fd))))
              (toAdjustD cfg.fixedProportions
                (bumpsD t cfg.fixedProportions (rawDistF cfg fd)) (rawDistF cfg fd)),
              (0 : ℚ) ≤ p.2 := by
            intro p hp
            rcases mem_dmap_elim hp with ⟨p0, h0, he⟩
            rw [he]
            show (0 : ℚ) ≤ p0.2 * _
            have h1 : 0 ≤ p0.2 := hD0 p0 (mem_toAdjustD_elim h0).1
            exact mul_nonneg h1 hscale
          exact dunion_values (fun v => (0 : ℚ) ≤ v)
            (dunion_values (fun v => (0 : ℚ) ≤ v) (fun p hp => (hfv p hp).1) hbv) hadj
        · rw [applyThr_eq_self_of_no_rewrite (Or.inr (not_lt.mp ha))]
          exact hD0

theorem normalizeD_bounds {d : Dict ℚ} (h : ∀ p ∈ d, 0 ≤ p.2) :
    ∀ p ∈ normalizeD d, 0 ≤ p.2 ∧ p.2 ≤ 1 := by
  unfold normalizeD
  split_ifs with hs
  · intro p hp
    rcases mem_dmap_elim hp with ⟨p0, h0, he⟩
    rw [he]
    have h1 : 0 ≤ p0.2 := h p0 h0
    constructor
    · exact div_nonneg h1 hs.le
    · rw [div_le_one hs]
      exact value_le_dsum h h0
  · intro p hp
    have h1 : 0 ≤ p.2 := h p hp
    have h2 : p.2 ≤ dsum d := value_le_dsum h hp
    have h3 : dsum d ≤ 0 := not_lt.mp hs
    exact ⟨h1, by linarith⟩

theorem droundVals_bounds {d : Dict ℚ} (h : ∀ p ∈ d, 0 ≤ p.2 ∧ p.2 ≤ 1) :
    ∀ p ∈ droundVals d, 0 ≤ p.2 ∧ p.2 ≤ 1 := by
  intro p hp
  rcases mem_dmap_elim hp with ⟨p0, h0, he⟩
  rw [he]
  exact ⟨roundQ4_nonneg (h p0 h0).1, roundQ4_le_one (h p0 h0).2⟩

theorem dmem_rawDistF_of_pos {cfg : Config} {fd : List Entry} {g : String} {tok : Int}
    (htok : ∀ e ∈ fd, 0 ≤ etok e)
    (hlook : dlookup (mergedTokensF cfg fd) g = some tok) (hpos : 0 < tok) :
    dmem (rawDistF cfg fd) g = true := by
  unfold rawDistF
  split_ifs with hl
  · rw [dmem_dmap]
    unfold dmem
    rw [hlook]
    rfl
  · have hgfix : dmem cfg.fixedProportions g = true := by
      by_contra hnot
      have hgf : dmem cfg.fixedProportions g = false := by
        rcases Bool.eq_false_or_eq_true (dmem cfg.fixedProportions g) with h | h
        · rw [h] at hnot
          exact absurd rfl hnot
        · exact h
      have hmemf : (g, tok) ∈ (mergedTokensF cfg fd).filter
          (fun p => !(dmem cfg.fixedProportions p.1)) := by
        apply List.mem_filter.mpr
        exact ⟨mem_of_dlookup hlook, by simp [hgf]⟩
      have hnn : ∀ p ∈ (mergedTokensF cfg fd).filter
          (fun p => !(dmem cfg.fixedProportions p.1)), (0 : ℤ) ≤ p.2 := by
        intro p hp
        exact mergedTokensF_nonneg htok p (List.mem_of_mem_filter hp)
      have hle : tok ≤ leftoverF cfg fd := value_le_dsum hnn hmemf
      have : 0 < leftoverF cfg fd := lt_of_lt_of_le hpos hle
      exact hl this
    exact hgfix

theorem dmem_applyThr_of_mem {mt : Option ℚ} {fixed dist : Dict ℚ} {g : String}
    (hdnd : dnodup dist) (hg : dmem dist g = true) :
    dmem (applyThr mt fixed dist) g = true := by
  cases mt with
  | none => exact hg
  | some t =>
    by_cases ht0 : t = 0
    · rw [applyThr, if_pos ht0]
      exact hg
    · by_cases hb : bumpsD t fixed dist = []
      · rw [applyThr_eq_self_of_no_rewrite (Or.inl hb)]
        exact hg
      · by_cases ha : 0 < dsum (toAdjustD fixed (bumpsD t fixed dist) dist)
        · rw [applyThr_eq_rewrite ht0 hb ha,
            dmem_dunion _ _ (dnodup_dmap _ (dnodup_toAdjustD _ _ hdnd)),
            dmem_dunion _ _ (dnodup_bumpsD _ _ hdnd)]
          by_cases hgb : dmem (bumpsD t fixed dist) g = true
          · rw [hgb]
            simp
          · by_cases hgf : dmem fixed g = true
            · rw [hgf]
              simp
            · have hgb2 : dmem (bumpsD t fixed dist) g = false := by
                rcases Bool.eq_false_or_eq_true (dmem (bumpsD t fixed dist) g) with h | h
                · rw [h] at hgb
                  exact absurd rfl hgb
                · exact h
              have hgf2 : dmem fixed g = false := by
                rcases Bool.eq_false_or_eq_true (dmem fixed g) with h | h
                · rw [h] at hgf
                  exact absurd rfl hgf
                · exact h
              unfold dmem at hg
              rcases Option.isSome_iff_exists.mp hg with ⟨v, hv⟩
              have hmem : (g, v) ∈ toAdjustD fixed (bumpsD t fixed dist) dist := by
                apply List.mem_filter.mpr
                refine ⟨mem_of_dlookup hv, ?_⟩
                rw [Bool.and_eq_true]
                constructor
                · rw [hgf2]
                  rfl
                · rw [hgb2]
                  rfl
              have : dmem (toAdjustD fixed (bumpsD t fixed dist) dist) g = true :=
                dlookup_isSome_of_mem hmem
              rw [dmem_dmap, this]
              simp
        · rw [applyThr_eq_self_of_no_rewrite (Or.inr (not_lt.mp ha))]
          exact hg

/-! ## Evaluation equations for `compute_distribution` -/

theorem compute_missing_eq (cfg : Config) :
    compute_distribution Source.missing cfg = Except.error Err.fileNotFound := rfl

theorem compute_parse_fail_eq {ls : List Line} (cfg : Config)
    (hp : parseAll ls = none) :
    compute_distribution (Source.lines ls) cfg = Except.error Err.notValidJsonl := by
  rw [compute_distribution, hp]

theorem compute_lines_eq {ls : List Line} (cfg : Config) {data : List Entry}
    (hp : parseAll ls = some data) :
    compute_distribution (Source.lines ls) cfg =
      (if data.all entryValid = true then
        (if 1 < fixedSum cfg then Except.error Err.fixedTooLarge
         else Except.ok (computeCore cfg data))
       else Except.error Err.invalidEntry) := by
  rw [compute_distribution, hp]

/-! ## Claim C1 -/

/-- C1 (amended): for every valid input on which the returned language
distribution (resp. dataset-proportion table) is nonempty, its values sum
to exactly 1; each of the two maps is corrected independently.  (As stated
the claim also covers the empty maps, where the sum is 0: see the
counterexample.) -/
theorem C1_sum_to_one (cfg : Config) (data : List Entry)
    (hfix : dnodup cfg.fixedProportions) :
    (finalDist cfg data ≠ [] → dsum (finalDist cfg data) = 1) ∧
    (dspFinal cfg data ≠ [] → dsum (dspFinal cfg data) = 1) := by
  constructor
  · intro hne
    have hne2 : normedF cfg (filteredData cfg data) ≠ [] := by
      intro habs
      exact hne (by
        unfold finalDist finalF
        rw [(roundCorrect_eq_nil_iff _).mpr habs])
    exact roundCorrect_sum (dnodup_normedF cfg (filteredData cfg data) hfix) hne2
  · intro hne
    have hne2 : dspRawF cfg (filteredData cfg data) ≠ [] := by
      intro habs
      exact hne (by
        unfold dspFinal dspFinalF
        rw [(roundCorrect_eq_nil_iff _).mpr habs])
    exact roundCorrect_sum (dnodup_dspRawF cfg (filteredData cfg data)) hne2

/-- C1 counterexample: the empty input file with an empty configuration is
valid (it parses, every record is vacuously valid, and the fixed
proportions sum to 0 ≤ 1), yet both returned maps are empty and their
values sum to 0, not 1. -/
theorem C1_counterexample :
    compute_distribution (Source.lines []) cfg0 = Except.ok (computeCore cfg0 []) ∧
    dsum (computeCore cfg0 []).distribution = 0 ∧
    dsum (computeCore cfg0 []).dataset_proportions = 0 ∧
    (0 : ℚ) ≠ 1 := by
  refine ⟨?_, ?_, ?_, by norm_num⟩
  · simp [compute_distribution, parseAll, fixedSum, dsum, cfg0]
  · simp +decide [computeCore, coreF, finalF, normedF, distThrF, rawDistF,
      mergedTokensF, filteredData, leftoverF, normalizeD, roundCorrect, droundVals,
      roundDiff, dmap, dsum, dmaxPair, dmaxFrom, applyThr, bumpsD, toAdjustD,
      dlookup, dinsert, dmem, dunion, daddInt, fixedSum, isoMap, datasetToIso,
      mergeTarget, isDropped, elang, eds, epath, etok, roundQ4, rhe, cfg0]
  · simp +decide [computeCore, coreF, dspFinalF, dspRawF, finalF, normedF, distThrF,
      rawDistF, mergedTokensF, filteredData, leftoverF, normalizeD, roundCorrect,
      droundVals, roundDiff, dmap, dsum, dmaxPair, dmaxFrom, applyThr, bumpsD,
      toAdjustD, dlookup, dinsert, dmem, dunion, daddInt, fixedSum, isoMap,
      datasetToIso, mergeTarget, isDropped, elang, eds, epath, etok, roundQ4, rhe, cfg0]

set_option maxRecDepth 8000 in
/-- C1 witness: a concrete valid two-record run where both sums are 1. -/
theorem C1_witness :
    dsum (finalDist cfgW dataW) = 1 ∧ dsum (dspFinal cfgW dataW) = 1 := by
  have h := C1_sum_to_one cfgW dataW (by decide)
  have hd : finalF cfgW (filteredData cfgW dataW) = [("eng", 1/2), ("fra", 1/2)] := by
    simp +decide [finalF, normedF, distThrF, rawDistF, mergedTokensF,
      filteredData, leftoverF, normalizeD, roundCorrect, droundVals, roundDiff,
      dmap, dsum, dmaxPair, dmaxFrom, applyThr, bumpsD, toAdjustD, dlookup, dinsert,
      dmem, dunion, daddInt, fixedSum, isoMap, datasetToIso, mergeTarget, isDropped,
      elang, eds, epath, etok, roundQ4, rhe, cfgW, dataW, mkE]
    norm_num [Int.fract]
  have hmt : mergedTokensF cfgW (filteredData cfgW dataW) = [("eng", 100), ("fra", 100)] := by
    decide
  have hp : dspFinal cfgW dataW = [("a", 1/2), ("b", 1/2)] := by
    show dspFinalF cfgW (filteredData cfgW dataW) = [("a", 1/2), ("b", 1/2)]
    rw [dspFinalF, dspRawF, hd, hmt]
    simp +decide [roundCorrect, droundVals, roundDiff, dmap, dsum, dmaxPair, dmaxFrom,
      dlookup, dinsert, dmem, mergeTarget, isoMap, datasetToIso, isDropped,
      filteredData, elang, eds, epath, etok, roundQ4, rhe, cfgW, dataW, mkE]
    norm_num [Int.fract]
  exact ⟨h.1 (by rw [show finalDist cfgW dataW = finalF cfgW (filteredData cfgW dataW) from rfl, hd]; simp),
    h.2 (by rw [hp]; simp)⟩

/-! ## Claim C7 -/

/-- C7: when the available tokens of the non-fixed groups sum to zero, the
raw (Stage 3) distribution is exactly `fixed_proportions`, and every
non-fixed group is absent from the returned distribution (its proportion
reads as 0). -/
theorem C7_no_leftover (cfg : Config) (data : List Entry)
    (h0 : leftoverTk cfg data = 0) :
    rawDist cfg data = cfg.fixedProportions ∧
    ∀ g, dmem cfg.fixedProportions g = false →
      dlookup (finalDist cfg data) g = none ∧
      (dlookup (finalDist cfg data) g).getD 0 = 0 := by
  have hraw : rawDistF cfg (filteredData cfg data) = cfg.fixedProportions :=
    rawDistF_of_leftover_nonpos (le_of_eq h0)
  refine ⟨hraw, fun g hg => ?_⟩
  have hthr : distThrF cfg (filteredData cfg data) = cfg.fixedProportions := by
    unfold distThrF
    rw [hraw]
    exact applyThr_of_fixed_keys _ (fun p hp => dmem_of_mem hp)
  have hmem : dmem (finalF cfg (filteredData cfg data)) g = false := by
    unfold finalF normedF
    rw [dmem_roundCorrect, dmem_normalizeD, hthr]
    exact hg
  have hnone : dlookup (finalDist cfg data) g = none := dmem_false_lookup_none hmem
  exact ⟨hnone, by rw [hnone]; rfl⟩

/-- C7 witness: with fixed `eng` and only `eng` records, `fra` is absent
from the returned distribution and the raw distribution equals the fixed
configuration. -/
theorem C7_witness :
    rawDist cfgW dataW7 = cfgW.fixedProportions ∧
    dlookup (finalDist cfgW dataW7) "fra" = none ∧
    (dlookup (finalDist cfgW dataW7) "fra").getD 0 = 0 := by
  have h := C7_no_leftover cfgW dataW7 (by decide)
  exact ⟨h.1, (h.2 "fra" (by decide)).1, (h.2 "fra" (by decide)).2⟩

/-! ## Claim C4 -/

/-- C4: with a (truthy) minimum threshold `t` configured,
(1) every non-fixed group whose raw proportion is nonzero and below `t`
gets exactly `t` (hence at least the threshold) in the post-Stage-4
distribution whenever the adjustable groups sum positively;
(2) when no group needs bumping or the adjustable sum is not positive, the
distribution is exactly the raw one;
(3) a fixed group's entry is never changed by the threshold stage. -/
theorem C4_threshold (cfg : Config) (data : List Entry) (t : ℚ)
    (hfix : dnodup cfg.fixedProportions)
    (hmt : cfg.minThreshold = some t) (ht0 : ¬ t = 0) :
    (∀ g v, dmem cfg.fixedProportions g = false →
       dlookup (rawDist cfg data) g = some v → v ≠ 0 → v < t →
       0 < dsum (toAdjustD cfg.fixedProportions
         (bumpsD t cfg.fixedProportions (rawDist cfg data)) (rawDist cfg data)) →
       dlookup (distAfterThr cfg data) g = some t) ∧
    ((bumpsD t cfg.fixedProportions (rawDist cfg data) = [] ∨
      dsum (toAdjustD cfg.fixedProportions
        (bumpsD t cfg.fixedProportions (rawDist cfg data)) (rawDist cfg data)) ≤ 0) →
      distAfterThr cfg data = rawDist cfg data) ∧
    (∀ g v, dmem cfg.fixedProportions g = true →
       dlookup (rawDist cfg data) g = some v →
       dlookup (distAfterThr cfg data) g = some v) := by
  have hD : dnodup (rawDist cfg data) :=
    dnodup_rawDistF cfg (filteredData cfg data) hfix
  have hunf : distAfterThr cfg data =
      applyThr (some t) cfg.fixedProportions (rawDist cfg data) := by
    unfold distAfterThr distThrF
    rw [hmt]
    rfl
  refine ⟨?_, ?_, ?_⟩
  · intro g v hgf hv hne hlt ha
    have hgd : (g, v) ∈ rawDist cfg data := mem_of_dlookup hv
    have hbm : (g, t) ∈ bumpsD t cfg.fixedProportions (rawDist cfg data) :=
      mem_bumpsD hgd hgf hlt
    have hb : bumpsD t cfg.fixedProportions (rawDist cfg data) ≠ [] :=
      List.ne_nil_of_mem hbm
    have hBnd : dnodup (bumpsD t cfg.fixedProportions (rawDist cfg data)) :=
      dnodup_bumpsD _ _ hD
    have hblk : dlookup (bumpsD t cfg.fixedProportions (rawDist cfg data)) g = some t :=
      dlookup_eq_of_mem_nodup hBnd hbm
    have hbmem : dmem (bumpsD t cfg.fixedProportions (rawDist cfg data)) g = true := by
      unfold dmem
      rw [hblk]
      rfl
    rw [hunf, applyThr_eq_rewrite ht0 hb ha,
      dlookup_dunion_of_none _ (dnodup_dmap _ (dnodup_toAdjustD _ _ hD))
        (dlookup_dmap_none _ (dlookup_toAdjustD_none_of_bumped hbmem)),
      dlookup_dunion_of_some _ hBnd hblk]
  · intro h
    rw [hunf]
    exact applyThr_eq_self_of_no_rewrite h
  · intro g v hgf hv
    rw [hunf]
    exact applyThr_preserves_fixed hfix hgf hv

/-- C4 witness: with threshold `1/10`, the group `x` at raw proportion
`1/50` is bumped to exactly `1/10`. -/
theorem C4_witness :
    dlookup (distAfterThr cfgW4 dataW4) "x" = some (1/10) := by
  have h := C4_threshold cfgW4 dataW4 (1/10) (by decide) rfl (by norm_num)
  have hraw : dlookup (rawDist cfgW4 dataW4) "x" = some (1/50) := by
    norm_num [rawDist, rawDistF, mergedTokensF, filteredData, leftoverF, dmap, dsum,
      dmem, dlookup, dinsert, daddInt, fixedSum, isoMap, datasetToIso, mergeTarget,
      isDropped, elang, eds, epath, etok, cfgW4, dataW4, mkE,
      (by decide : ("x" : String) ≠ "y"), (by decide : ("y" : String) ≠ "x")]
  have ha : 0 < dsum (toAdjustD cfgW4.fixedProportions
      (bumpsD (1/10) cfgW4.fixedProportions (rawDist cfgW4 dataW4))
      (rawDist cfgW4 dataW4)) := by
    norm_num [rawDist, rawDistF, toAdjustD, bumpsD, mergedTokensF, filteredData,
      leftoverF, dmap, dsum, dmem, dlookup, dinsert, daddInt, fixedSum, isoMap,
      datasetToIso, mergeTarget, isDropped, elang, eds, epath, etok, cfgW4, dataW4, mkE,
      (by decide : ("x" : String) ≠ "y"), (by decide : ("y" : String) ≠ "x")]
  exact h.1 "x" (1/50) (by decide) hraw (by norm_num) (by norm_num) ha

/-! ## Claim C5 -/

/-- C5: the computation fails (raising, and so returning no partial
output) exactly when the file is missing, a line is malformed JSON, some
record is invalid (missing or empty `lang`, `dataset` or `path`, or a
non-integer token count), or the fixed proportions sum to more than 1. -/
theorem C5_failure_iff (src : Source) (cfg : Config) :
    isFailure (compute_distribution src cfg) = true ↔
      (src = Source.missing ∨
       ∃ ls, src = Source.lines ls ∧
         (Line.malformed ∈ ls ∨
          ∃ data, parseAll ls = some data ∧
            (¬ data.all entryValid = true ∨ 1 < fixedSum cfg))) := by
  cases src with
  | missing => simp [compute_missing_eq, isFailure]
  | lines ls =>
    cases hp : parseAll ls with
    | none =>
      have hm : Line.malformed ∈ ls := (parseAll_eq_none_iff ls).mp hp
      rw [compute_parse_fail_eq cfg hp]
      simp [isFailure, hm]
    | some data =>
      have hnm : Line.malformed ∉ ls := by
        intro hm
        rw [(parseAll_eq_none_iff ls).mpr hm] at hp
        exact Option.noConfusion hp
      rw [compute_lines_eq cfg hp]
      constructor
      · intro hfail
        refine Or.inr ⟨ls, rfl, Or.inr ⟨data, hp, ?_⟩⟩
        by_cases hv : data.all entryValid = true
        · right
          by_contra hf
          rw [if_pos hv, if_neg hf] at hfail
          exact Bool.noConfusion hfail
        · exact Or.inl hv
      · intro h
        rcases h with h | ⟨ls2, hls, h⟩
        · exact Source.noConfusion h
        · have hls2 : ls2 = ls := by
            injection hls with h2
            exact h2.symm
          subst hls2
          rcases h with hm | ⟨data2, hp2, hcase⟩
          · exact absurd hm hnm
          · rw [hp] at hp2
            injection hp2 with h2
            subst h2
            rcases hcase with hcv | hcf
            · rw [if_neg hcv]
              rfl
            · by_cases hv : data.all entryValid = true
              · rw [if_pos hv, if_pos hcf]
                rfl
              · rw [if_neg hv]
                rfl

/-- C5 witness: a missing file fails. -/
theorem C5_witness : isFailure (compute_distribution Source.missing cfg0) = true :=
  (C5_failure_iff Source.missing cfg0).mpr (Or.inl rfl)

/-! ## Claim C10 -/

set_option maxRecDepth 20000 in
/-- C10: a record whose `lang`, `dataset` and `path` are non-empty strings
and whose token count is a negative integer passes validation; token
counts (negative ones included) are summed into the group totals, so
`total_available_tokens` (here `-5`) and distribution values (here `-1`)
can be negative. -/
theorem C10_negative_tokens (e : Entry) (s1 s2 s3 : String) (n : Int)
    (h1 : e.lang = some s1) (h2 : s1 ≠ "") (h3 : e.dataset = some s2) (h4 : s2 ≠ "")
    (h5 : e.path = some s3) (h6 : s3 ≠ "") (h7 : e.tokens = some n) (h8 : n < 0) :
    entryValid e = true ∧
    (∀ cfg data, (computeCore cfg data).total_available_tokens =
      ((filteredData cfg data).map etok).sum) ∧
    (computeCore cfg0 dataC10a).total_available_tokens = -5 ∧
    dlookup (computeCore cfg0 dataC10b).distribution "aa" = some (-1) := by
  refine ⟨?_, ?_, by decide, ?_⟩
  · simp [entryValid, truthy, h1, h3, h5, h7, h2, h4, h6]
  · intro cfg data
    exact totalAvailableF_eq_sum cfg (filteredData cfg data)
  · have hm : mergedTokensF cfg0 (filteredData cfg0 dataC10b) = [("aa", -5), ("bb", 10)] := by
      decide
    have hl : leftoverF cfg0 (filteredData cfg0 dataC10b) = 5 := by decide
    have hr : rawDistF cfg0 (filteredData cfg0 dataC10b) = [("aa", -1), ("bb", 2)] := by
      rw [rawDistF, if_pos (by rw [hl]; norm_num), hl, hm]
      norm_num [dmap, dlookup, fixedSum, dsum, cfg0]
    have hnd : normedF cfg0 (filteredData cfg0 dataC10b) = [("aa", -1), ("bb", 2)] := by
      rw [normedF, distThrF, show cfg0.minThreshold = none from rfl, hr]
      show normalizeD [("aa", -1), ("bb", 2)] = [("aa", -1), ("bb", 2)]
      norm_num [normalizeD, dmap, dsum]
    have hdr : droundVals [("aa", (-1 : ℚ)), ("bb", 2)] = [("aa", -1), ("bb", 2)] := by
      simp only [droundVals, dmap, List.map]
      norm_num [roundQ4, rhe, Int.fract]
    have hdz : roundDiff [("aa", (-1 : ℚ)), ("bb", 2)] = 0 := by
      rw [roundDiff, hdr]
      norm_num [dsum, roundQ4, rhe, Int.fract]
    have hfd : finalF cfg0 (filteredData cfg0 dataC10b) = [("aa", -1), ("bb", 2)] := by
      rw [finalF, hnd, roundCorrect_of_diff_zero hdz, hdr]
    show dlookup (finalF cfg0 (filteredData cfg0 dataC10b)) "aa" = some (-1)
    rw [hfd]
    decide

/-! ## Claim C3 -/

/-- C3 (amended): when there are leftover tokens and every group
configured in FixedProportions has nonzero available (post-drop,
post-merge) tokens, a configured language's value in the normalized
distribution entering the rounding step equals its configured fixed
proportion exactly, whatever its token volume, and its rounded value is
that proportion rounded to 4 decimals.  (As stated the claim fails when
some other fixed group has no tokens: the Stage 5 renormalization then
changes the value — see the counterexample.) -/
theorem C3_fixed_value (cfg : Config) (data : List Entry) (g : String) (v : ℚ)
    (hfix : dnodup cfg.fixedProportions)
    (hleft : 0 < leftoverTk cfg data)
    (hfixtok : ∀ p ∈ cfg.fixedProportions,
      (dlookup (mergedTokens cfg data) p.1).getD 0 ≠ 0)
    (hv : dlookup cfg.fixedProportions g = some v) :
    dlookup (normedDist cfg data) g = some v ∧
    dlookup (droundVals (normedDist cfg data)) g = some (roundQ4 v) := by
  have hkeys : ∀ p ∈ cfg.fixedProportions,
      dmem (mergedTokensF cfg (filteredData cfg data)) p.1 = true := by
    intro p hp
    have h2 := hfixtok p hp
    unfold dmem
    cases hc : dlookup (mergedTokensF cfg (filteredData cfg data)) p.1 with
    | none =>
      exfalso
      apply h2
      show (dlookup (mergedTokensF cfg (filteredData cfg data)) p.1).getD 0 = 0
      rw [hc]
      rfl
    | some tok => rfl
  have hDnd : dnodup (rawDistF cfg (filteredData cfg data)) :=
    dnodup_rawDistF cfg (filteredData cfg data) hfix
  have hleftF : 0 < leftoverF cfg (filteredData cfg data) := hleft
  have hDv : dlookup (rawDistF cfg (filteredData cfg data)) g = some v := by
    unfold rawDistF
    rw [if_pos hleftF, dlookup_dmap]
    have hgk : dmem (mergedTokensF cfg (filteredData cfg data)) g = true :=
      hkeys (g, v) (mem_of_dlookup hv)
    unfold dmem at hgk
    rcases Option.isSome_iff_exists.mp hgk with ⟨tok, htok⟩
    rw [htok]
    simp only [Option.map_some']
    rw [hv]
    rfl
  have hraw1 : dsum (rawDistF cfg (filteredData cfg data)) = 1 :=
    rawDistF_sum_one hfix hleft hkeys
  have hs1 : dsum (distThrF cfg (filteredData cfg data)) = 1 ∧
      dlookup (distThrF cfg (filteredData cfg data)) g = some v := by
    unfold distThrF
    cases hmt : cfg.minThreshold with
    | none => exact ⟨hraw1, hDv⟩
    | some t =>
      by_cases ht0 : t = 0
      · rw [applyThr, if_pos ht0]
        exact ⟨hraw1, hDv⟩
      · by_cases hb : bumpsD t cfg.fixedProportions
            (rawDistF cfg (filteredData cfg data)) = []
        · rw [applyThr_eq_self_of_no_rewrite (Or.inl hb)]
          exact ⟨hraw1, hDv⟩
        · by_cases ha : 0 < dsum (toAdjustD cfg.fixedProportions
              (bumpsD t cfg.fixedProportions (rawDistF cfg (filteredData cfg data)))
              (rawDistF cfg (filteredData cfg data)))
          · have hgfix : dmem cfg.fixedProportions g = true := by
              unfold dmem
              rw [hv]
              rfl
            constructor
            · exact applyThr_rewrite_sum hfix hDnd ht0 hb ha
            · rw [applyThr_eq_rewrite ht0 hb ha,
                dlookup_dunion_of_none _ (dnodup_dmap _ (dnodup_toAdjustD _ _ hDnd))
                  (dlookup_dmap_none _ (dlookup_toAdjustD_none_of_fixed hgfix)),
                dlookup_dunion_of_none _ (dnodup_bumpsD _ _ hDnd)
                  (dlookup_bumpsD_none_of_fixed hgfix)]
              exact hv
          · rw [applyThr_eq_self_of_no_rewrite (Or.inr (not_lt.mp ha))]
            exact ⟨hraw1, hDv⟩
  have hmain : dlookup (normedDist cfg data) g = some v := by
    show dlookup (normalizeD (distThrF cfg (filteredData cfg data))) g = some v
    unfold normalizeD
    rw [if_pos (by rw [hs1.1]; norm_num), dlookup_dmap, hs1.2]
    simp only [Option.map_some']
    rw [hs1.1, div_one]
  refine ⟨hmain, ?_⟩
  rw [droundVals, dlookup_dmap, hmain]
  rfl

/-- C3 counterexample: with fixed `{eng: 1/2, deu: 3/10}` and records for
`eng` and `fra` only, `eng` has nonzero tokens and a fixed proportion of
`1/2`, yet its final distribution value is `0.7143` — off by far more than
4-decimal rounding. -/
theorem C3_counterexample :
    dlookup cfgC3.fixedProportions "eng" = some (1/2) ∧
    (dlookup (mergedTokens cfgC3 dataC3) "eng").getD 0 ≠ 0 ∧
    compute_distribution (Source.lines (dataC3.map Line.ok)) cfgC3 =
      Except.ok (computeCore cfgC3 dataC3) ∧
    dlookup (finalDist cfgC3 dataC3) "eng" = some (7143/10000) ∧
    (1/10000 : ℚ) < |7143/10000 - (1/2 : ℚ)| := by
  refine ⟨by norm_num [dlookup, cfgC3], by decide, ?_, ?_, ?_⟩
  · rw [compute_lines_eq cfgC3 (parseAll_map_ok dataC3), if_pos (by decide),
      if_neg (by norm_num [fixedSum, dsum, cfgC3])]
  · have hm : mergedTokensF cfgC3 (filteredData cfgC3 dataC3) =
        [("eng", 100), ("fra", 100)] := by decide
    have hl : leftoverF cfgC3 (filteredData cfgC3 dataC3) = 100 := by decide
    have hr : rawDistF cfgC3 (filteredData cfgC3 dataC3) =
        [("eng", 1/2), ("fra", 1/5)] := by
      rw [rawDistF, if_pos (by rw [hl]; norm_num), hl, hm]
      norm_num [dmap, dlookup, fixedSum, dsum, cfgC3,
        (by decide : ("eng" : String) ≠ "fra"), (by decide : ("fra" : String) ≠ "eng"),
        (by decide : ("deu" : String) ≠ "fra"), (by decide : ("fra" : String) ≠ "deu")]
    have hnd : normedF cfgC3 (filteredData cfgC3 dataC3) =
        [("eng", 5/7), ("fra", 2/7)] := by
      rw [normedF, distThrF, show cfgC3.minThreshold = none from rfl, hr]
      show normalizeD [("eng", 1/2), ("fra", 1/5)] = [("eng", 5/7), ("fra", 2/7)]
      norm_num [normalizeD, dmap, dsum]
    have hdr : droundVals [("eng", (5 : ℚ)/7), ("fra", 2/7)] =
        [("eng", 7143/10000), ("fra", 2857/10000)] := by
      simp only [droundVals, dmap, List.map]
      norm_num [roundQ4, rhe, Int.fract]
    have hdz : roundDiff [("eng", (5 : ℚ)/7), ("fra", 2/7)] = 0 := by
      rw [roundDiff, hdr]
      norm_num [dsum, roundQ4, rhe, Int.fract]
    show dlookup (finalF cfgC3 (filteredData cfgC3 dataC3)) "eng" = some (7143/10000)
    rw [finalF, hnd, roundCorrect_of_diff_zero hdz, hdr]
    norm_num [dlookup]
  · have habs : |7143/10000 - (1/2 : ℚ)| = 2143/10000 := by
      rw [show (7143/10000 - (1/2 : ℚ)) = 2143/10000 by norm_num]
      exact abs_of_pos (by norm_num)
    rw [habs]
    norm_num

/-- C3 witness: with fixed `{eng: 1/2}` and tokens for both groups, the
normalized value of `eng` is exactly `1/2`. -/
theorem C3_witness :
    dlookup (normedDist cfgW dataW) "eng" = some (1/2) ∧
    dlookup (droundVals (normedDist cfgW dataW)) "eng" = some (roundQ4 (1/2)) := by
  have h := C3_fixed_value cfgW dataW "eng" (1/2) (by decide) (by decide) (by decide)
    (by norm_num [dlookup, cfgW])
  exact h

/-! ## Claim C8 -/

/-- C8 (amended): on an input all of whose records are valid, running with
a drop configuration returns exactly the result of running with an empty
drop configuration on the pre-filtered input (records whose original,
pre-merge `lang` lists their dataset are removed); dropped tokens hence
contribute to no output quantity.  (As stated, over every input, the claim
fails: an invalid record inside a dropped dataset makes the run with the
drop configuration raise while the run on the filtered input succeeds.) -/
theorem C8_drop_equiv (cfg : Config) (data : List Entry)
    (hvalid : data.all entryValid = true) :
    compute_distribution (Source.lines (data.map Line.ok)) cfg =
      compute_distribution (Source.lines ((filteredData cfg data).map Line.ok))
        (dropCleared cfg) := by
  rw [compute_lines_eq cfg (parseAll_map_ok data),
    compute_lines_eq (dropCleared cfg) (parseAll_map_ok (filteredData cfg data))]
  have hv2 : (filteredData cfg data).all entryValid = true := by
    rw [List.all_eq_true] at hvalid ⊢
    exact fun e he => hvalid e (List.mem_of_mem_filter he)
  rw [hvalid, hv2]
  have hfs : fixedSum (dropCleared cfg) = fixedSum cfg := rfl
  rw [hfs]
  by_cases hf : 1 < fixedSum cfg
  · rw [if_pos rfl, if_pos rfl, if_pos hf, if_pos hf]
  · rw [if_pos rfl, if_pos rfl, if_neg hf, if_neg hf]
    have h1 : filteredData (dropCleared cfg) (filteredData cfg data) =
        filteredData cfg data := by
      unfold filteredData
      apply List.filter_eq_self.mpr
      intro e he
      simp [isDropped, dropCleared, dlookup]
    show Except.ok (coreF cfg (filteredData cfg data)) =
      Except.ok (coreF (dropCleared cfg)
        (filteredData (dropCleared cfg) (filteredData cfg data)))
    rw [h1]
    rfl

/-- C8 counterexample: with DropConfig `{eng: [D]}` and a single invalid
record (no `path`) in the dropped dataset, the run with the drop rule
raises while the run on the filtered input succeeds, so the two runs are
not equal. -/
theorem C8_counterexample :
    compute_distribution (Source.lines ([entryC8].map Line.ok)) cfgC8 ≠
      compute_distribution
        (Source.lines ((filteredData cfgC8 [entryC8]).map Line.ok))
        (dropCleared cfgC8) := by
  intro heq
  have h1 : isFailure
      (compute_distribution (Source.lines ([entryC8].map Line.ok)) cfgC8) = true := by
    decide
  have h2 : isFailure
      (compute_distribution (Source.lines ((filteredData cfgC8 [entryC8]).map Line.ok))
        (dropCleared cfgC8)) = false := by
    decide
  rw [heq, h2] at h1
  exact Bool.noConfusion h1

/-- C8 witness: a valid two-record input where the dropped record's tokens
disappear from the result. -/
theorem C8_witness :
    compute_distribution (Source.lines (dataC8w.map Line.ok)) cfgC8 =
      compute_distribution (Source.lines ((filteredData cfgC8 dataC8w).map Line.ok))
        (dropCleared cfgC8) :=
  C8_drop_equiv cfgC8 dataC8w (by decide)

/-! ## Claim C6 -/

/-- C6 (amended): a group configured in FixedProportions but absent from
the (post-drop, post-merge) token table is always excluded from the
returned usageReport; it appears in the Stage-4 distribution with exactly
its configured fixed value when the leftover token count is not positive
or when the threshold stage rewrites the distribution.  (As stated, the
claim fails: with positive leftover tokens and no threshold rewrite, such
a group is absent from the returned distribution — see the
counterexample.) -/
theorem C6_fixed_absent (cfg : Config) (data : List Entry) (g : String)
    (hfix : dnodup cfg.fixedProportions)
    (hg : dmem cfg.fixedProportions g = true)
    (habs : dlookup (mergedTokens cfg data) g = none) :
    dmem (usageRep cfg data) g = false ∧
    (leftoverTk cfg data ≤ 0 ∨ rewriteFires cfg data = true →
      dlookup (distAfterThr cfg data) g = dlookup cfg.fixedProportions g) := by
  have habs2 : dlookup (mergedTokensF cfg (filteredData cfg data)) g = none := habs
  constructor
  · show dmem (usageF cfg (filteredData cfg data)) g = false
    unfold usageF
    rw [dmem_dmap]
    unfold dmem
    rw [dlookup_filter_none (fun v => by
      rw [habs2]
      rfl)]
    rfl
  · intro hcase
    rcases hcase with hle | hfire
    · have hraw : rawDistF cfg (filteredData cfg data) = cfg.fixedProportions :=
        rawDistF_of_leftover_nonpos hle
      have hthr : distAfterThr cfg data = cfg.fixedProportions := by
        unfold distAfterThr distThrF
        rw [hraw]
        exact applyThr_of_fixed_keys _ (fun p hp => dmem_of_mem hp)
      rw [hthr]
    · have hD : dnodup (rawDist cfg data) :=
        dnodup_rawDistF cfg (filteredData cfg data) hfix
      unfold rewriteFires at hfire
      cases hmt : cfg.minThreshold with
      | none =>
        rw [hmt] at hfire
        exact Bool.noConfusion hfire
      | some t =>
        rw [hmt] at hfire
        rw [thrFires] at hfire
        by_cases ht0 : t = 0
        · rw [if_pos ht0] at hfire
          exact Bool.noConfusion hfire
        · rw [if_neg ht0] at hfire
          by_cases hb : bumpsD t cfg.fixedProportions (rawDist cfg data) = []
          · rw [if_pos hb] at hfire
            exact Bool.noConfusion hfire
          · rw [if_neg hb] at hfire
            have ha : 0 < dsum (toAdjustD cfg.fixedProportions
                (bumpsD t cfg.fixedProportions (rawDist cfg data))
                (rawDist cfg data)) := of_decide_eq_true hfire
            have hthr : distAfterThr cfg data =
                applyThr (some t) cfg.fixedProportions (rawDist cfg data) := by
              unfold distAfterThr distThrF
              rw [hmt]
              rfl
            rw [hthr, applyThr_eq_rewrite ht0 hb ha,
              dlookup_dunion_of_none _ (dnodup_dmap _ (dnodup_toAdjustD _ _ hD))
                (dlookup_dmap_none _ (dlookup_toAdjustD_none_of_fixed hg)),
              dlookup_dunion_of_none _ (dnodup_bumpsD _ _ hD)
                (dlookup_bumpsD_none_of_fixed hg)]

/-- C6 counterexample: fixed `eng` with only a `fra` record (positive
leftover, no threshold): `eng` is configured and absent from the data but
also absent from the returned distribution, while the claim requires it to
appear with value `1/2`. -/
theorem C6_counterexample :
    dmem cfgC6.fixedProportions "eng" = true ∧
    dlookup (mergedTokens cfgC6 dataC6) "eng" = none ∧
    compute_distribution (Source.lines (dataC6.map Line.ok)) cfgC6 =
      Except.ok (computeCore cfgC6 dataC6) ∧
    dlookup (finalDist cfgC6 dataC6) "eng" = none := by
  refine ⟨by decide, by decide, ?_, ?_⟩
  · rw [compute_lines_eq cfgC6 (parseAll_map_ok dataC6), if_pos (by decide),
      if_neg (by norm_num [fixedSum, dsum, cfgC6])]
  · have hm : mergedTokensF cfgC6 (filteredData cfgC6 dataC6) = [("fra", 100)] := by decide
    have hl : leftoverF cfgC6 (filteredData cfgC6 dataC6) = 100 := by decide
    have hr : rawDistF cfgC6 (filteredData cfgC6 dataC6) = [("fra", 1/2)] := by
      rw [rawDistF, if_pos (by rw [hl]; norm_num), hl, hm]
      norm_num [dmap, dlookup, fixedSum, dsum, cfgC6,
        (by decide : ("eng" : String) ≠ "fra"), (by decide : ("fra" : String) ≠ "eng")]
    have hnd : normedF cfgC6 (filteredData cfgC6 dataC6) = [("fra", 1)] := by
      rw [normedF, distThrF, show cfgC6.minThreshold = none from rfl, hr]
      show normalizeD [("fra", 1/2)] = [("fra", 1)]
      norm_num [normalizeD, dmap, dsum]
    have hdr : droundVals [("fra", (1 : ℚ))] = [("fra", 1)] := by
      simp only [droundVals, dmap, List.map]
      norm_num [roundQ4, rhe, Int.fract]
    have hdz : roundDiff [("fra", (1 : ℚ))] = 0 := by
      rw [roundDiff, hdr]
      norm_num [dsum, roundQ4, rhe, Int.fract]
    show dlookup (finalF cfgC6 (filteredData cfgC6 dataC6)) "eng" = none
    rw [finalF, hnd, roundCorrect_of_diff_zero hdz, hdr]
    decide

/-- C6 witness: fixed `deu` absent from an input whose records are all in
fixed groups (leftover zero): `deu` keeps its fixed value `3/10` in the
Stage-4 distribution and is excluded from the usage report. -/
theorem C6_witness :
    dmem (usageRep cfgC6w dataC6w) "deu" = false ∧
    dlookup (distAfterThr cfgC6w dataC6w) "deu" =
      dlookup cfgC6w.fixedProportions "deu" := by
  have h := C6_fixed_absent cfgC6w dataC6w "deu" (by decide) (by decide) (by decide)
  exact ⟨h.1, h.2 (Or.inl (by decide))⟩

/-! ## Claim C9 -/

theorem dmem_usageF_iff {cfg : Config} {fd : List Entry} {g : String}
    (hfix : dnodup cfg.fixedProportions)
    (htok : ∀ e ∈ fd, 0 ≤ etok e) :
    dmem (usageF cfg fd) g = true ↔ (dlookup (mergedTokensF cfg fd) g).getD 0 ≠ 0 := by
  unfold usageF
  rw [dmem_dmap]
  constructor
  · intro h
    rcases Option.isSome_iff_exists.mp h with ⟨w, hw⟩
    have hmem := mem_of_dlookup hw
    have hcond := (List.mem_filter.mp hmem).2
    have hpos : 0 < (dlookup (mergedTokensF cfg fd) g).getD 0 := of_decide_eq_true hcond
    exact hpos.ne'
  · intro h
    cases hc : dlookup (mergedTokensF cfg fd) g with
    | none =>
      rw [hc] at h
      simp at h
    | some tok =>
      rw [hc] at h
      simp only [Option.getD_some] at h
      have htnn : (0 : ℤ) ≤ tok := mergedTokensF_nonneg htok _ (mem_of_dlookup hc)
      have hpos : (0 : ℤ) < tok := lt_of_le_of_ne htnn (Ne.symm h)
      have h1 : dmem (rawDistF cfg fd) g = true := dmem_rawDistF_of_pos htok hc hpos
      have h2 : dmem (distThrF cfg fd) g = true :=
        dmem_applyThr_of_mem (dnodup_rawDistF cfg fd hfix) h1
      have h3 : dmem (normedF cfg fd) g = true := by
        show dmem (normalizeD (distThrF cfg fd)) g = true
        rw [dmem_normalizeD]
        exact h2
      have h4 : dmem (finalF cfg fd) g = true := by
        show dmem (roundCorrect (normedF cfg fd)) g = true
        rw [dmem_roundCorrect]
        exact h3
      rcases Option.isSome_iff_exists.mp h4 with ⟨v, hv⟩
      have hmem : (g, v) ∈ (finalF cfg fd).filter
          (fun p => 0 < (dlookup (mergedTokensF cfg fd) p.1).getD 0) := by
        apply List.mem_filter.mpr
        refine ⟨mem_of_dlookup hv, ?_⟩
        simp only [hc, Option.getD_some]
        exact decide_eq_true hpos
      exact dlookup_isSome_of_mem hmem

/-- C9: for every configuration with duplicate-free fixed proportions and
every validated input whose token counts are nonnegative (as the data model
requires), the returned language usage report contains exactly the groups
whose post-drop, post-merge token total is nonzero, and the value reported
for such a group equals its final rounded proportion times the
training-token budget, divided by the group's available token total. -/
theorem C9_usage_report (cfg : Config) (data : List Entry)
    (hfix : dnodup cfg.fixedProportions)
    (htok : ∀ e ∈ data, 0 ≤ etok e) :
    (∀ g, dmem (usageRep cfg data) g = true ↔
      (dlookup (mergedTokens cfg data) g).getD 0 ≠ 0) ∧
    (∀ g u, dlookup (usageRep cfg data) g = some u →
      ∃ v tok, dlookup (finalDist cfg data) g = some v ∧
        dlookup (mergedTokens cfg data) g = some tok ∧ tok ≠ 0 ∧
        u = v * (cfg.totalTrainingTokens : ℚ) / ((tok : ℤ) : ℚ)) := by
  have htok2 : ∀ e ∈ filteredData cfg data, 0 ≤ etok e :=
    fun e he => htok e (List.mem_of_mem_filter he)
  constructor
  · intro g
    exact dmem_usageF_iff hfix htok2
  · intro g u hu
    have hu2 : dlookup (usageF cfg (filteredData cfg data)) g = some u := hu
    unfold usageF at hu2
    rw [dlookup_dmap] at hu2
    rcases Option.map_eq_some'.mp hu2 with ⟨w, hw, hval⟩
    have hmem := mem_of_dlookup hw
    rcases List.mem_filter.mp hmem with ⟨hmemF, hcond⟩
    have hpos : 0 < (dlookup (mergedTokensF cfg (filteredData cfg data)) g).getD 0 :=
      of_decide_eq_true hcond
    cases hc : dlookup (mergedTokensF cfg (filteredData cfg data)) g with
    | none =>
      rw [hc] at hpos
      simp at hpos
    | some tok =>
      rw [hc] at hpos
      simp only [Option.getD_some] at hpos
      have hval2 : w * (cfg.totalTrainingTokens : ℚ) /
          (((dlookup (mergedTokensF cfg (filteredData cfg data)) g).getD 1 : ℤ) : ℚ) =
          u := hval
      rw [hc] at hval2
      simp only [Option.getD_some] at hval2
      refine ⟨w, tok, ?_, hc, hpos.ne', hval2.symm⟩
      exact dlookup_eq_of_mem_nodup (dnodup_finalF cfg (filteredData cfg data) hfix) hmemF

/-- C9 witness: on the two-record fixed-`eng` scenario, `eng` (100 tokens)
is in the usage report and a group `zzz` with no tokens is not. -/
theorem C9_witness :
    dmem (usageRep cfgW dataW) "eng" = true ∧
    dmem (usageRep cfgW dataW) "zzz" = false := by
  have h := C9_usage_report cfgW dataW (by decide) (by decide)
  constructor
  · exact (h.1 "eng").mpr (by decide)
  · cases hz : dmem (usageRep cfgW dataW) "zzz" with
    | false => rfl
    | true => exact absurd ((h.1 "zzz").mp hz) (by decide)

/-! ## Claim C2 -/

theorem roundCorrect_bounds {d : Dict ℚ} (hnd : dnodup d)
    (h : ∀ p ∈ d, 0 ≤ p.2 ∧ p.2 ≤ 1) (g : String) :
    (dlookup (roundCorrect d) g).getD 0 ≤ 1 ∧
    (some g = (dmaxPair (droundVals d)).map Prod.fst ∨
      0 ≤ (dlookup (roundCorrect d) g).getD 0) := by
  have hr : ∀ p ∈ droundVals d, 0 ≤ p.2 ∧ p.2 ≤ 1 := droundVals_bounds h
  have hrnn : ∀ p ∈ droundVals d, 0 ≤ p.2 := fun p hp => (hr p hp).1
  have hlook : ∀ g' : String, 0 ≤ (dlookup (droundVals d) g').getD 0 ∧
      (dlookup (droundVals d) g').getD 0 ≤ 1 := by
    intro g'
    cases hc : dlookup (droundVals d) g' with
    | none => norm_num
    | some w =>
      have hw := hr (g', w) (mem_of_dlookup hc)
      simpa using hw
  unfold roundCorrect
  split_ifs with hcond
  · cases hm : dmaxPair (droundVals d) with
    | none => exact ⟨(hlook g).2, Or.inr (hlook g).1⟩
    | some kv =>
      by_cases hg : g = kv.1
      · have hkv : kv ∈ droundVals d := dmaxPair_mem hm
        have hkv2 : (kv.1, kv.2) ∈ droundVals d := by simpa using hkv
        have hlk : dlookup (droundVals d) kv.1 = some kv.2 :=
          dlookup_eq_of_mem_nodup (dnodup_dmap _ hnd) hkv2
        have hdq : IsQ4 (1 - dsum (droundVals d)) :=
          IsQ4.sub isQ4_one (dsum_isQ4 droundVals_isQ4)
        have hdiff : roundDiff d = 1 - dsum (droundVals d) := by
          rw [roundDiff]
          exact hdq.roundQ4_eq
        have hvq : IsQ4 ((dlookup (droundVals d) kv.1).getD 0 + roundDiff d) := by
          rw [hlk, hdiff]
          exact (droundVals_isQ4 (kv.1, kv.2) hkv2).add hdq
        have hvv : roundQ4 ((dlookup (droundVals d) kv.1).getD 0 + roundDiff d) =
            kv.2 + (1 - dsum (droundVals d)) := by
          rw [hvq.roundQ4_eq, hlk, hdiff]
          rfl
        constructor
        · rw [hg, dlookup_dinsert_self, Option.getD_some, hvv]
          have hle : kv.2 ≤ dsum (droundVals d) := value_le_dsum hrnn hkv
          linarith
        · left
          rw [hg]
          simp [hm]
      · rw [dlookup_dinsert_ne _ _ hg]
        exact ⟨(hlook g).2, Or.inr (hlook g).1⟩
  · exact ⟨(hlook g).2, Or.inr (hlook g).1⟩

/-- C2 (amended): for every validated input with nonnegative token counts,
fixed proportions that are duplicate-free, each in `[0, 1]` and summing to
at most 1, and a threshold whose bump total fits in the non-fixed share,
every value of the normalized pre-rounding distribution lies in `[0, 1]`,
every value of the returned distribution is at most 1, and every returned
value except possibly the remainder-correction key (the first largest
rounded entry) is nonnegative.  (As stated, over every valid input, the
claim fails: the threshold rescale factor can be negative and drive a
returned value below 0, see the counterexample.) -/
theorem C2_value_bounds (cfg : Config) (data : List Entry)
    (hfix : dnodup cfg.fixedProportions)
    (htok : ∀ e ∈ data, 0 ≤ etok e)
    (hfv : ∀ p ∈ cfg.fixedProportions, 0 ≤ p.2 ∧ p.2 ≤ 1)
    (hfs : fixedSum cfg ≤ 1)
    (hthr : ∀ t, cfg.minThreshold = some t →
      dsum (bumpsD t cfg.fixedProportions (rawDist cfg data)) ≤ 1 - fixedSum cfg) :
    (∀ g, 0 ≤ (dlookup (normedDist cfg data) g).getD 0 ∧
      (dlookup (normedDist cfg data) g).getD 0 ≤ 1) ∧
    (∀ g, (dlookup (finalDist cfg data) g).getD 0 ≤ 1) ∧
    (∀ g, some g = (dmaxPair (droundVals (normedDist cfg data))).map Prod.fst ∨
      0 ≤ (dlookup (finalDist cfg data) g).getD 0) := by
  have htok2 : ∀ e ∈ filteredData cfg data, 0 ≤ etok e :=
    fun e he => htok e (List.mem_of_mem_filter he)
  have hD0 : ∀ p ∈ rawDistF cfg (filteredData cfg data), 0 ≤ p.2 :=
    rawDistF_nonneg htok2 hfv hfs
  have hT0 : ∀ p ∈ distThrF cfg (filteredData cfg data), 0 ≤ p.2 :=
    applyThr_nonneg hfv hD0 (fun t ht => hthr t ht)
  have hN : ∀ p ∈ normedF cfg (filteredData cfg data), 0 ≤ p.2 ∧ p.2 ≤ 1 :=
    normalizeD_bounds hT0
  have hnd : dnodup (normedF cfg (filteredData cfg data)) :=
    dnodup_normedF cfg (filteredData cfg data) hfix
  refine ⟨?_, ?_, ?_⟩
  · intro g
    cases hc : dlookup (normedDist cfg data) g with
    | none => norm_num
    | some v =>
      have hv : (g, v) ∈ normedF cfg (filteredData cfg data) := mem_of_dlookup hc
      have hb := hN (g, v) hv
      simpa using hb
  · intro g
    exact (roundCorrect_bounds hnd hN g).1
  · intro g
    exact (roundCorrect_bounds hnd hN g).2

/-- C2 counterexample: with no fixed proportions, `min_threshold = 3/5` and
token counts 1, 1, 100, the input is valid and the run succeeds, yet the
threshold rescale factor `(1 - 0 - 6/5) / (50/51)` is negative and the
returned distribution value of group `c` is `-1/5 < 0`. -/
theorem C2_counterexample :
    compute_distribution (Source.lines (dataC2.map Line.ok)) cfgC2 =
      Except.ok (computeCore cfgC2 dataC2) ∧
    dlookup (finalDist cfgC2 dataC2) "c" = some (-(1/5)) ∧
    (-(1/5) : ℚ) < 0 := by
  refine ⟨?_, ?_, by norm_num⟩
  · rw [compute_lines_eq cfgC2 (parseAll_map_ok dataC2), if_pos (by decide),
      if_neg (by norm_num [fixedSum, dsum, cfgC2])]
  · have hm : mergedTokensF cfgC2 (filteredData cfgC2 dataC2) =
        [("a", 1), ("b", 1), ("c", 100)] := by decide
    have hl : leftoverF cfgC2 (filteredData cfgC2 dataC2) = 102 := by decide
    have hr : rawDistF cfgC2 (filteredData cfgC2 dataC2) =
        [("a", 1/102), ("b", 1/102), ("c", 50/51)] := by
      rw [rawDistF, if_pos (by rw [hl]; norm_num), hl, hm]
      norm_num [dmap, dlookup, fixedSum, dsum, cfgC2]
    have hbu : bumpsD (3/5) cfgC2.fixedProportions
        [("a", (1 : ℚ)/102), ("b", 1/102), ("c", 50/51)] =
        [("a", 3/5), ("b", 3/5)] := by
      norm_num [bumpsD, dmap, dmem, dlookup, cfgC2, List.filter]
    have hta : toAdjustD cfgC2.fixedProportions [("a", (3 : ℚ)/5), ("b", 3/5)]
        [("a", (1 : ℚ)/102), ("b", 1/102), ("c", 50/51)] = [("c", 50/51)] := by
      norm_num [toAdjustD, dmem, dlookup, cfgC2, List.filter,
        (by decide : ("a" : String) ≠ "c"), (by decide : ("b" : String) ≠ "c"),
        (by decide : ("a" : String) ≠ "b"), (by decide : ("b" : String) ≠ "a")]
    have hAT : distThrF cfgC2 (filteredData cfgC2 dataC2) =
        [("a", 3/5), ("b", 3/5), ("c", -(1/5))] := by
      rw [distThrF, show cfgC2.minThreshold = some (3/5) from rfl, hr,
        applyThr_eq_rewrite (by norm_num) (by rw [hbu]; simp)
          (by rw [hbu, hta]; norm_num [dsum]),
        hbu, hta]
      norm_num [dunion, dinsert, dmap, dsum, dlookup, cfgC2, List.foldl,
        (by decide : ("a" : String) ≠ "b"), (by decide : ("b" : String) ≠ "a"),
        (by decide : ("a" : String) ≠ "c"), (by decide : ("c" : String) ≠ "a"),
        (by decide : ("b" : String) ≠ "c"), (by decide : ("c" : String) ≠ "b")]
    have hnorm : normedF cfgC2 (filteredData cfgC2 dataC2) =
        [("a", 3/5), ("b", 3/5), ("c", -(1/5))] := by
      rw [normedF, hAT]
      norm_num [normalizeD, dmap, dsum]
    have hdr : droundVals [("a", (3 : ℚ)/5), ("b", 3/5), ("c", -(1/5))] =
        [("a", 3/5), ("b", 3/5), ("c", -(1/5))] := by
      simp only [droundVals, dmap, List.map]
      norm_num [roundQ4, rhe, Int.fract]
    have hdz : roundDiff [("a", (3 : ℚ)/5), ("b", 3/5), ("c", -(1/5))] = 0 := by
      rw [roundDiff, hdr]
      norm_num [dsum, roundQ4, rhe, Int.fract]
    show dlookup (finalF cfgC2 (filteredData cfgC2 dataC2)) "c" = some (-(1/5))
    rw [finalF, hnorm, roundCorrect_of_diff_zero hdz, hdr]
    norm_num [dlookup, (by decide : ("a" : String) ≠ "c"),
      (by decide : ("b" : String) ≠ "c")]

/-- C2 witness: on the two-record fixed-`eng` scenario every hypothesis of
the amended bound holds; instantiated at group `eng`. -/
theorem C2_witness :
    (0 ≤ (dlookup (normedDist cfgW dataW) "eng").getD 0 ∧
      (dlookup (normedDist cfgW dataW) "eng").getD 0 ≤ 1) ∧
    (dlookup (finalDist cfgW dataW) "eng").getD 0 ≤ 1 := by
  have hfv : ∀ p ∈ cfgW.fixedProportions, 0 ≤ p.2 ∧ p.2 ≤ 1 := by
    intro p hp
    have hp2 : p = ("eng", (1 : ℚ)/2) := List.mem_singleton.mp hp
    rw [hp2]
    norm_num
  have h := C2_value_bounds cfgW dataW (by decide) (by decide) hfv
    (by norm_num [fixedSum, dsum, cfgW]) (fun t ht => by simp [cfgW] at ht)
  exact ⟨h.1 "eng", h.2.1 "eng"⟩

/-- C10 witness: the concrete record `("aa", "d", "p", -5)` is accepted
and its token count is summed. -/
theorem C10_witness :
    entryValid (mkE "aa" "d" "p" (-5)) = true ∧
    (computeCore cfg0 dataC10a).total_available_tokens =
      ((filteredData cfg0 dataC10a).map etok).sum ∧
    (computeCore cfg0 dataC10a).total_available_tokens = -5 ∧
    dlookup (computeCore cfg0 dataC10b).distribution "aa" = some (-1) := by
  have h := C10_negative_tokens (mkE "aa" "d" "p" (-5)) "aa" "d" "p" (-5)
    rfl (by decide) rfl (by decide) rfl (by decide) rfl (by decide)
  exact ⟨h.1, h.2.1 cfg0 dataC10a, h.2.2.1, h.2.2.2⟩

end MLDistGen
